import Mathlib

/-!
# Verification of the sarzee procedural dice-roll core

Shallow embedding of `src/components/DiceArena.tsx` (the roll orchestrator,
landing-point placement, per-die animation state machine and tick driver) and
of `computeValueFromQuaternion` from `src/components/SarzeeCelebration.tsx`.

Modelling conventions, used throughout:

* JavaScript numbers are modelled as exact rational (`ℚ`) or real (`ℝ`)
  arithmetic, the usual idealization of IEEE doubles.
* All quaternions that the face-orientation lookup produces lie in the
  binary-octahedral group, whose components live in the ring ℚ[√2].  We
  represent that ring exactly by the structure `Q2` (`a + b·√2` with
  `a b : ℚ`), with decidable comparison, so the up-vector read-back is a
  computable function.
* Quantities of the animation pipeline that pass through transcendental
  functions (`Math.exp`, `Math.sin`, slerp's `acos` path) are modelled
  partially as `Option` values: `some v` means the source computes exactly the
  real value `v` on this path (for example a rotation by angle `0`, a slerp
  whose endpoints coincide, or a product with an exact quaternion), and `none`
  means the exact value is not representable here.  Every operation maps
  `none` to `none` and produces `some` only where the source's real-number
  semantics provably equals that value, so everything proved about `some`
  results is a fact about the source.
-/

/-! ## The ring ℚ[√2], with decidable order -/

/-- An element `a + b·√2` of ℚ[√2]. -/
structure Q2 where
  a : ℚ
  b : ℚ
deriving DecidableEq, Repr

namespace Q2

def ofRat (q : ℚ) : Q2 := ⟨q, 0⟩

instance : Zero Q2 := ⟨⟨0, 0⟩⟩
instance : One Q2 := ⟨⟨1, 0⟩⟩

def add (x y : Q2) : Q2 := ⟨x.a + y.a, x.b + y.b⟩
def neg (x : Q2) : Q2 := ⟨-x.a, -x.b⟩
def sub (x y : Q2) : Q2 := ⟨x.a - y.a, x.b - y.b⟩
def mul (x y : Q2) : Q2 := ⟨x.a * y.a + 2 * (x.b * y.b), x.a * y.b + x.b * y.a⟩

instance : Add Q2 := ⟨add⟩
instance : Neg Q2 := ⟨neg⟩
instance : Sub Q2 := ⟨sub⟩
instance : Mul Q2 := ⟨mul⟩

/-- `√2/2`, the value `Math.SQRT2 / 2 = cos (π/4)`. -/
def rt2half : Q2 := ⟨0, 1/2⟩

/-- Decision procedure for `0 ≤ a + b·√2` over the reals: since `√2` is
irrational, the sign is determined by the signs of `a`, `b` and the comparison
of `a^2` with `2·b^2`. -/
def nonneg (x : Q2) : Bool :=
  (0 ≤ x.a && 0 ≤ x.b) ||
  (0 ≤ x.a && 2 * x.b ^ 2 ≤ x.a ^ 2) ||
  (0 ≤ x.b && x.a ^ 2 ≤ 2 * x.b ^ 2)

def leb (x y : Q2) : Bool := nonneg (y - x)
def ltb (x y : Q2) : Bool := nonneg (y - x) && !(decide (x = y))
def absv (x : Q2) : Q2 := if nonneg x then x else -x

/-- Real-number interpretation of an element of ℚ[√2]. -/
noncomputable def toReal (x : Q2) : ℝ := (x.a : ℝ) + (x.b : ℝ) * Real.sqrt 2

end Q2

/-! ## Vectors and quaternions over ℚ[√2], with the THREE.js operations -/

/-- A 3-vector with ℚ[√2] components (`THREE.Vector3`). -/
structure VecK where
  x : Q2
  y : Q2
  z : Q2
deriving DecidableEq, Repr

/-- A quaternion with ℚ[√2] components, stored as in `THREE.Quaternion`
(`x`, `y`, `z` imaginary parts and `w` real part). -/
structure QuatK where
  x : Q2
  y : Q2
  z : Q2
  w : Q2
deriving DecidableEq, Repr

namespace QuatK

/-- The identity quaternion `(0,0,0,1)`. -/
def id : QuatK := ⟨0, 0, 0, 1⟩

/-- Hamilton product, exactly as `THREE.Quaternion.multiplyQuaternions(a, b)`
computes it (`a.multiply(b)` sets `a := a * b`). -/
def mul (q p : QuatK) : QuatK :=
  ⟨q.x * p.w + q.w * p.x + q.y * p.z - q.z * p.y,
   q.y * p.w + q.w * p.y + q.z * p.x - q.x * p.z,
   q.z * p.w + q.w * p.z + q.x * p.y - q.y * p.x,
   q.w * p.w - q.x * p.x - q.y * p.y - q.z * p.z⟩

/-- `THREE.Quaternion.invert` (conjugation; the source only inverts unit
quaternions). -/
def invert (q : QuatK) : QuatK := ⟨-q.x, -q.y, -q.z, q.w⟩

/-- Dot product of two quaternions, as used by slerp's `cosHalfTheta`. -/
def dot (q p : QuatK) : Q2 := q.x * p.x + q.y * p.y + q.z * p.z + q.w * p.w

/-- Squared norm. -/
def normSq (q : QuatK) : Q2 := q.x * q.x + q.y * q.y + q.z * q.z + q.w * q.w

end QuatK

/-- `THREE.Vector3.applyQuaternion`, translated verbatim:
`t := 2 * cross(q.xyz, v)`, `v' := v + q.w * t + cross(q.xyz, t)`. -/
def applyQuaternion (v : VecK) (q : QuatK) : VecK :=
  let tx := Q2.ofRat 2 * (q.y * v.z - q.z * v.y)
  let ty := Q2.ofRat 2 * (q.z * v.x - q.x * v.z)
  let tz := Q2.ofRat 2 * (q.x * v.y - q.y * v.x)
  ⟨v.x + q.w * tx + (q.y * tz - q.z * ty),
   v.y + q.w * ty + (q.z * tx - q.x * tz),
   v.z + q.w * tz + (q.x * ty - q.y * tx)⟩

/-! ## Angles that are integer multiples of π/2

Every rotation the orchestrator stores as a target is built from Euler angles
in `{0, ±π/2, π}` and yaws `k·π/2`.  We encode such an angle by its integer
number `k` of quarter turns (the encoded angle is `k·π/2`), so the half-angle
is `k·π/4` and its sine/cosine lie in ℚ[√2]. -/

/-- `cos (k·π/4)` as an element of ℚ[√2] (period-8 table). -/
def cosq (k : ℤ) : Q2 :=
  match (k % 8).toNat with
  | 0 => 1
  | 1 => Q2.rt2half
  | 2 => 0
  | 3 => -Q2.rt2half
  | 4 => -1
  | 5 => -Q2.rt2half
  | 6 => 0
  | _ => Q2.rt2half

/-- `sin (k·π/4)` as an element of ℚ[√2] (period-8 table). -/
def sinq (k : ℤ) : Q2 :=
  match (k % 8).toNat with
  | 0 => 0
  | 1 => Q2.rt2half
  | 2 => 1
  | 3 => Q2.rt2half
  | 4 => 0
  | 5 => -Q2.rt2half
  | 6 => -1
  | _ => -Q2.rt2half

/-- `THREE.Quaternion.setFromEuler` for order `XYZ`, with the three angles
given in quarter turns (angle = `k·π/2`):
`x = s1·c2·c3 + c1·s2·s3`, `y = c1·s2·c3 − s1·c2·s3`,
`z = c1·c2·s3 + s1·s2·c3`, `w = c1·c2·c3 − s1·s2·s3`
where `c_i`/`s_i` are the half-angle cosine/sine. -/
def quatFromEulerXYZ (kx ky kz : ℤ) : QuatK :=
  let c1 := cosq kx; let s1 := sinq kx
  let c2 := cosq ky; let s2 := sinq ky
  let c3 := cosq kz; let s3 := sinq kz
  ⟨s1 * c2 * c3 + c1 * s2 * s3,
   c1 * s2 * c3 - s1 * c2 * s3,
   c1 * c2 * s3 + s1 * s2 * c3,
   c1 * c2 * c3 - s1 * s2 * s3⟩

/-- `THREE.Quaternion.setFromAxisAngle` with axis `(0,1,0)` and angle `k·π/2`
(the yaw applied to a face orientation): `(0, sin(k·π/4), 0, cos(k·π/4))`. -/
def yawQuat (k : ℤ) : QuatK := ⟨0, sinq k, 0, cosq k⟩

/-! ## Face-orientation lookup and up-vector read-back -/

/-- `Math.round` (half away from zero is half-up for the range involved):
the source only rounds values that are then clamped to `1..6`, where
`Math.round x = ⌊x + 1/2⌋`. -/
def jsRound (x : ℚ) : ℤ := ⌊x + 1/2⌋

/-- `clampDie` from `DiceArena.tsx`: `Math.max(1, Math.min(6, Math.round(v)))`. -/
def clampDie (v : ℚ) : ℤ := max 1 (min 6 (jsRound v))

/-- `eulerForValue` from `DiceArena.tsx`, with angles encoded in quarter
turns (`1 ↦ π/2` etc.): `1:(0,0,0)`, `6:(π,0,0)`, `2:(−π/2,0,0)`,
`5:(π/2,0,0)`, `3:(0,0,π/2)`, `4:(0,0,−π/2)`, default `(0,0,0)`. -/
def eulerForValue (value : ℤ) : ℤ × ℤ × ℤ :=
  match value with
  | 1 => (0, 0, 0)
  | 6 => (2, 0, 0)
  | 2 => (-1, 0, 0)
  | 5 => (1, 0, 0)
  | 3 => (0, 0, 1)
  | 4 => (0, 0, -1)
  | _ => (0, 0, 0)

/-- The quaternion the orchestrator builds for a face value:
`new THREE.Quaternion().setFromEuler(new THREE.Euler(rx, 0, rz))` where
`[rx, , rz] = eulerForValue v` (the middle Euler angle is discarded and
replaced by `0`, as in the source). -/
def faceQuat (v : ℤ) : QuatK :=
  let e := eulerForValue v
  quatFromEulerXYZ e.1 0 e.2.2

/-- `computeValueFromQuaternion` from `SarzeeCelebration.tsx`: rotate the
world up vector into the die's local frame by the inverse orientation, and
read the face from the dominant component's axis and sign. -/
def computeValueFromQuaternion (q : QuatK) : ℤ :=
  let localUp := applyQuaternion ⟨0, 1, 0⟩ (QuatK.invert q)
  let absX := Q2.absv localUp.x
  let absY := Q2.absv localUp.y
  let absZ := Q2.absv localUp.z
  if Q2.leb absX absY && Q2.leb absZ absY then
    (if Q2.ltb 0 localUp.y then 1 else 6)
  else if Q2.leb absY absX && Q2.leb absZ absX then
    (if Q2.ltb 0 localUp.x then 3 else 4)
  else
    (if Q2.ltb 0 localUp.z then 2 else 5)

/-! ## Landing-point placement (`generateLandingPoints`)

Points have plain rational coordinates (the generator only ever works with
rational combinations of its inputs).  The seeded generator `mulberry32(seed)`
is modelled as a stream `rng : ℕ → ℚ` together with a cursor that counts how
many values have been drawn; every theorem below holds for an arbitrary
stream whose values lie in `[0, 1)`, hence in particular for the mulberry32
stream the source constructs. -/

/-- A point with rational coordinates (`THREE.Vector3` as used by the
placement code). -/
structure Vec3Q where
  x : ℚ
  y : ℚ
  z : ℚ
deriving DecidableEq, Repr

/-- Squared Euclidean distance between two points. -/
def distSq (p q : Vec3Q) : ℚ :=
  (p.x - q.x) ^ 2 + (p.y - q.y) ^ 2 + (p.z - q.z) ^ 2

/-- The source's rejection test `c.distanceTo(p) < d`, decided exactly:
for real numbers, `Real.sqrt (distSq c p) < d ↔ 0 < d ∧ distSq c p < d^2`. -/
def distLt (p q : Vec3Q) (d : ℚ) : Bool :=
  decide (0 < d) && decide (distSq p q < d ^ 2)

/-- Real distance at least `d` (the claim's reading of a passed rejection
test): trivially true for `d ≤ 0`, and `d^2 ≤ distSq` otherwise. -/
def distGe (p q : Vec3Q) (d : ℚ) : Prop := d ≤ 0 ∨ d ^ 2 ≤ distSq p q

/-- One uniform draw inside the bounds:
`x = xMin + (xMax−xMin)·rng(); z = zMin + (zMax−zMin)·rng(); y = 0.62`.
Returns the point and the advanced stream cursor. -/
def drawPoint (rng : ℕ → ℚ) (idx : ℕ) (xMin xMax zMin zMax : ℚ) : Vec3Q × ℕ :=
  (⟨xMin + (xMax - xMin) * rng idx, 31/50, zMin + (zMax - zMin) * rng (idx + 1)⟩,
   idx + 2)

/-- The acceptance test of one attempt: the candidate is at distance
`≥ minDist` from every already-placed point and `≥ 1.5·minDist` from every
forbidden (held-die) position, exactly as the inner loops check it. -/
def okPoint (c : Vec3Q) (pts avoidPositions : List Vec3Q) (minDist : ℚ) : Bool :=
  pts.all (fun p => !distLt c p minDist) &&
  avoidPositions.all (fun p => !distLt c p (minDist * (3/2)))

/-- The attempt loop for one point: up to `fuel` (the source uses 900) draws,
accepting the first that passes `okPoint`; if the fuel is exhausted, an
unconstrained fallback draw is used.  The boolean records whether the point
was accepted within the cap (`true`) or is a fallback (`false`). -/
def tryPlace (rng : ℕ → ℚ) (xMin xMax zMin zMax : ℚ)
    (pts avoidPositions : List Vec3Q) (minDist : ℚ) :
    ℕ → ℕ → Vec3Q × ℕ × Bool
  | 0, idx =>
      let d := drawPoint rng idx xMin xMax zMin zMax
      (d.1, d.2, false)
  | fuel + 1, idx =>
      let d := drawPoint rng idx xMin xMax zMin zMax
      if okPoint d.1 pts avoidPositions minDist then (d.1, d.2, true)
      else tryPlace rng xMin xMax zMin zMax pts avoidPositions minDist fuel d.2

/-- `generateLandingPoints`, instrumented: returns each produced point
together with its accepted/fallback flag, in placement order, and the final
stream cursor. -/
def generateLandingPointsFlagged (rng : ℕ → ℚ) (minDist xMin xMax zMin zMax : ℚ)
    (avoidPositions : List Vec3Q) :
    ℕ → ℕ → List Vec3Q → List (Vec3Q × Bool) × ℕ
  | 0, idx, _ => ([], idx)
  | count + 1, idx, pts =>
      let r := tryPlace rng xMin xMax zMin zMax pts avoidPositions minDist 900 idx
      let rest := generateLandingPointsFlagged rng minDist xMin xMax zMin zMax
        avoidPositions count r.2.1 (pts ++ [r.1])
      ((r.1, r.2.2) :: rest.1, rest.2)

/-- `generateLandingPoints` from `DiceArena.tsx`: the list of points produced
(flags forgotten) and the advanced stream cursor. -/
def generateLandingPoints (rng : ℕ → ℚ) (count : ℕ) (minDist xMin xMax zMin zMax : ℚ)
    (avoidPositions : List Vec3Q) (idx : ℕ) : List Vec3Q × ℕ :=
  let r := generateLandingPointsFlagged rng minDist xMin xMax zMin zMax
    avoidPositions count idx []
  (r.1.map Prod.fst, r.2)

/-! ## The two shuffles: the source's `.sort(() => rng() - 0.5)` and the
spec's Fisher-Yates

`rollToResult` reorders the landing points with
`.sort(() => rng() - 0.5)` — `Array.prototype.sort` with a comparator that
ignores its arguments and returns `rng() - 0.5`.  Since the comparator is
not a consistent comparator, ECMAScript (ES2019+) leaves the resulting
order implementation-defined, so we model the engine this code actually
runs on: V8's TimSort (`third_party/v8/src/objects/../builtins/array-sort.tq`).
For arrays shorter than 64 elements the minimal run length equals the array
length, so the whole sort is one `CountAndMakeRun` pass followed by one
`BinaryInsertionSort` call and no merging:

* `CountAndMakeRun` first calls `Compare(a[1], a[0])`; a negative result
  marks the run descending.  It then extends the run while
  `Compare(a[i], a[i-1])` keeps its sign (strictly negative when
  descending, non-negative when ascending), consuming one comparator call
  (one stream draw) per examined element, including the one that breaks the
  run; a descending run prefix is reversed in place.
* If the run is shorter than the array, `BinaryInsertionSort(0, run, n)`
  inserts each remaining element `a[start]` by binary search on `[0, start)`:
  `mid = left + ((right - left) >> 1)`, `order = Compare(pivot, a[mid])`,
  `order < 0` narrows to `[left, mid)`, otherwise to `[mid+1, right)`.

Because the comparator ignores its arguments, every comparison outcome is a
pure function of the stream, which the model threads explicitly.  On two
elements this reduces to: one draw, reverse the pair iff the draw is below
one half. -/

/-- The run-extension loop of V8's `CountAndMakeRun`: starting from a run of
length 2 whose direction is already fixed, keep extending while the next
comparator draw continues the run (strictly negative when descending,
non-negative when ascending); the breaking comparison also consumes a draw.
Returns the run length and the advanced stream cursor; the first argument is
the number of elements left to examine. -/
def runExtent (rng : ℕ → ℚ) (descending : Bool) : ℕ → ℕ → ℕ → ℕ × ℕ
  | 0, run, idx => (run, idx)
  | n + 1, run, idx =>
      if descending then
        if 0 ≤ rng idx - 1/2 then (run, idx + 1)
        else runExtent rng descending n (run + 1) (idx + 1)
      else
        if rng idx - 1/2 < 0 then (run, idx + 1)
        else runExtent rng descending n (run + 1) (idx + 1)

/-- The binary-search loop of V8's `BinaryInsertionSort`: narrow `[left, right)`
with `mid = left + (right - left) / 2`, going left when the comparator draw is
negative.  The first argument is fuel (`right - left` suffices); returns the
insertion position and the advanced cursor. -/
def binSearchPos (rng : ℕ → ℚ) : ℕ → ℕ → ℕ → ℕ → ℕ × ℕ
  | 0, left, _, idx => (left, idx)
  | fuel + 1, left, right, idx =>
      if right ≤ left then (left, idx)
      else
        let mid := left + (right - left) / 2
        if rng idx - 1/2 < 0 then binSearchPos rng fuel left mid (idx + 1)
        else binSearchPos rng fuel (mid + 1) right (idx + 1)

/-- Move the element at index `start` to index `pos ≤ start`, shifting the
elements in between one place right (identity when `start` is out of range):
the element move of `BinaryInsertionSort`. -/
def moveToPos (l : List Vec3Q) (start pos : ℕ) : List Vec3Q :=
  match l.get? start with
  | some p => l.take pos ++ p :: ((l.drop pos).take (start - pos) ++ l.drop (start + 1))
  | none => l

/-- The outer loop of `BinaryInsertionSort(0, start, n)`: insert each element
from index `start` upward at the position found by binary search.  The first
argument is the number of elements still to insert. -/
def bisLoop (rng : ℕ → ℚ) : ℕ → List Vec3Q → ℕ → ℕ → List Vec3Q × ℕ
  | 0, l, _, idx => (l, idx)
  | fuel + 1, l, start, idx =>
      let bs := binSearchPos rng start 0 start idx
      bisLoop rng fuel (moveToPos l start bs.1) (start + 1) bs.2

/-- The source's `.sort(() => rng() - 0.5)` call as executed by V8's TimSort
on arrays shorter than 64 elements (landing-point arrays have at most 5):
`CountAndMakeRun` (first draw fixes the direction, `runExtent` extends,
a descending run prefix is reversed), then `BinaryInsertionSort` for the
remaining elements.  Arrays shorter than 2 are returned untouched with no
comparator call. -/
def jsArraySortRandom (rng : ℕ → ℚ) (l : List Vec3Q) (idx : ℕ) : List Vec3Q × ℕ :=
  if l.length < 2 then (l, idx)
  else
    let descending := decide (rng idx - 1/2 < 0)
    let re := runExtent rng descending (l.length - 2) 2 (idx + 1)
    let l1 := if descending then (l.take re.1).reverse ++ l.drop re.1 else l
    if re.1 < l.length then bisLoop rng (l.length - re.1) l1 re.1 re.2
    else (l1, re.2)

/-- Swap the entries at positions `i` and `j` of a list (identity when either
index is out of range). -/
def listSwap (l : List Vec3Q) (i j : ℕ) : List Vec3Q :=
  match l.get? i, l.get? j with
  | some a, some b => (l.set i b).set j a
  | _, _ => l

/-- One pass of the classic (descending) Fisher-Yates shuffle from position
`i` down to `1`: draw `j = ⌊rng()·(i+1)⌋` and swap positions `i` and `j`. -/
def fisherYatesAux (rng : ℕ → ℚ) : ℕ → List Vec3Q → ℕ → List Vec3Q × ℕ
  | 0, l, idx => (l, idx)
  | i + 1, l, idx =>
      let j := (⌊rng idx * (i + 2 : ℚ)⌋).toNat
      fisherYatesAux rng i (listSwap l (i + 1) j) (idx + 1)

/-- The Fisher-Yates shuffle driven by the stream, as the spec describes the
reordering (this definition follows the spec's words, for comparison with
`jsArraySortRandom` which follows the source). -/
def fisherYates (rng : ℕ → ℚ) (l : List Vec3Q) (idx : ℕ) : List Vec3Q × ℕ :=
  match l with
  | [] => ([], idx)
  | _ => fisherYatesAux rng (l.length - 1) l idx

/-- One pass of the ascending Fisher-Yates variant from position `i` up to
`n - 2`: draw `j = i + ⌊rng()·(n-i)⌋` and swap positions `i` and `j`.  The
first argument is the number of remaining passes. -/
def fyAscLoop (rng : ℕ → ℚ) (n : ℕ) : ℕ → ℕ → List Vec3Q → ℕ → List Vec3Q × ℕ
  | 0, _, l, idx => (l, idx)
  | fuel + 1, i, l, idx =>
      let j := i + (⌊rng idx * ((n - i : ℕ) : ℚ)⌋).toNat
      fyAscLoop rng n fuel (i + 1) (listSwap l i j) (idx + 1)

/-- The ascending variant of the Fisher-Yates shuffle driven by the stream
(the spec does not fix the direction of its loop, so the refutation below
rules out both variants). -/
def fisherYatesAsc (rng : ℕ → ℚ) (l : List Vec3Q) (idx : ℕ) : List Vec3Q × ℕ :=
  if l.length ≤ 1 then (l, idx)
  else fyAscLoop rng l.length (l.length - 1) 0 l idx

/-! ## Easing curves and the seeded PRNG -/

/-- `easeInOutCubic` from `DiceArena.tsx`. -/
def easeInOutCubic (x : ℚ) : ℚ :=
  if x < 1/2 then 4 * x ^ 3 else 1 - (-2 * x + 2) ^ 3 / 2

/-- `easeOutCubic` from `DiceArena.tsx`. -/
def easeOutCubic (x : ℚ) : ℚ := 1 - (1 - x) ^ 3

/-- The scrambling step of `mulberry32`, on 32-bit words

`let x = Math.imul(t ^ (t >>> 15), 1 | t);
 x ^= x + Math.imul(x ^ (x >>> 7), 61 | x);
 return ((x ^ (x >>> 14)) >>> 0) / 4294967296;`

(all operations taken mod 2³²; signedness is irrelevant modulo 2³²). -/
def mulberry32Scramble (t : ℕ) : ℚ :=
  let x0 := ((t ^^^ (t >>> 15)) * ((1 ||| t) % 2 ^ 32)) % 2 ^ 32
  let x1 := (x0 ^^^ ((x0 + ((x0 ^^^ (x0 >>> 7)) * ((61 ||| x0) % 2 ^ 32)) % 2 ^ 32) % 2 ^ 32)) % 2 ^ 32
  ((((x1 ^^^ (x1 >>> 14)) % 2 ^ 32 : ℕ) : ℚ)) / 2 ^ 32

/-- `mulberry32(seed)` as a stream: the state is `t += 0x6D2B79F5` per call,
so the `n`-th value (counting from 0) scrambles `seed + (n+1)·0x6D2B79F5`. -/
def mulberry32 (seed : ℕ) (n : ℕ) : ℚ :=
  mulberry32Scramble ((seed + (n + 1) * 0x6D2B79F5) % 2 ^ 32)

/-! ## The per-die animation record

Modelled fields of the source's `DieAnim` record.  Fields that only drive the
die's position (`p0`, `pMid`, `p1`, `lastPos`, `arc`, and the held-slot
animation fields) are omitted: no claim under verification mentions a
position.  The unit-vector fields `flightAxis`, `corrAxis` and
`spinAxisGround` are omitted because the Option layer only tracks rotations
about them at angle `0`, where the axis is irrelevant; `corrAngle` is kept
(as an `Option`) because a claim is about it. -/

structure DieAnim where
  active : Bool
  finishedMotion : Bool
  t : ℚ
  dur : ℚ
  q0 : Option QuatK
  qTarget : QuatK
  rollAccum : Option QuatK
  wobbleYaw : ℚ
  wobblePitch : ℚ
  flightSpeed : ℚ
  groundStarted : Bool
  groundBaseQuat : Option QuatK
  hasGroundCorrection : Option Bool
  corrAngle : Option ℚ
  settleInitialized : Bool
  settleTime : ℚ
  settleDuration : ℚ
  currentOmega : Option ℚ
  accumulatedTheta : Option ℚ
deriving DecidableEq, Repr

/-! ### Partial (exactness-tracking) quaternion operations -/

/-- Product of two tracked quaternions. -/
def mulOpt : Option QuatK → Option QuatK → Option QuatK
  | some a, some b => some (a.mul b)
  | _, _ => none

/-- `THREE.Quaternion.normalize` on a tracked quaternion: a unit quaternion
is returned unchanged (dividing by length 1 is exact); any other length would
require a square root, so the result is untracked. -/
def normalizeOpt : Option QuatK → Option QuatK
  | some q => if QuatK.normSq q = 1 then some q else none
  | none => none

/-- `setFromAxisAngle(axis, θ)` for a tracked angle about a unit axis that is
itself not tracked: at `θ = 0` the result is the identity whatever the axis;
for `θ ≠ 0` the components `sin(θ/2)·axis`, `cos(θ/2)` are not representable
(for rational `θ ≠ 0` the cosine is transcendental). -/
def axisAngleZeroOpt : Option ℚ → Option QuatK
  | some θ => if θ = 0 then some QuatK.id else none
  | none => none

/-- The wobble quaternion
`setFromEuler(Euler(wobblePitch·amt·0.5, wobbleYaw·amt·0.5, 0))`: when both
wobble amplitudes are zero the Euler angles are exactly zero whatever the
(transcendental) envelope `amt`, giving the identity. -/
def wobbleOpt (pitch yaw : ℚ) : Option QuatK :=
  if pitch = 0 ∧ yaw = 0 then some QuatK.id else none

/-- `THREE.Quaternion.slerp(b, t)` on a tracked start quaternion, following
the source's branch structure: `t = 0` returns the start, `t = 1` returns
`b`, `|cosHalfTheta| ≥ 1` returns the start (THREE restores the saved
components in that branch); the interior trigonometric path is untracked. -/
def slerpOpt (a : Option QuatK) (b : QuatK) (t : ℚ) : Option QuatK :=
  match a with
  | none => none
  | some q =>
      if t = 0 then some q
      else if t = 1 then some b
      else if Q2.leb 1 (Q2.absv (QuatK.dot q b)) then some q
      else none

/-- `ω ·= Math.exp(−damping·dt)` (ground roll): exact only at `ω = 0`. -/
def expDecayOpt : Option ℚ → Option ℚ
  | some w => if w = 0 then some 0 else none
  | none => none

/-- The settle phase's `ω ·= Math.exp(−8·dt); if (ω < 0.05) ω = 0`: from an
exact `ω = 0` the result is exactly `0`; from any other value the outcome of
the decay (and hence of the clamp) is untracked. -/
def settleOmega : Option ℚ → Option ℚ
  | some w => if w = 0 then some 0 else none
  | none => none

/-- `THREE.MathUtils.clamp(x, −1, 1)` on ℚ[√2]. -/
def clampQ2 (x : Q2) : Q2 :=
  if Q2.leb 1 x then 1 else if Q2.leb x (-1) then -1 else x

/-- The one-time ground-phase setup (first ground frame): capture
`groundBaseQuat := quats[i].normalize()`, compute the base→target delta
`tmpErr = base⁻¹ · qTarget` (normalized) and from it the correction
axis/angle, with the degenerate case `s < 1e-5` (equivalently
`1 − w² < 1e-10` after clamping `w` to `[−1,1]`) disabling the correction;
reset `ω := flightSpeed·1.1`, `θ := 0` and `rollAccum := identity`. -/
def groundCorr (a : DieAnim) (q : Option QuatK) : Option ℚ × Option Bool :=
  match normalizeOpt (mulOpt ((normalizeOpt q).map QuatK.invert) (some a.qTarget)) with
  | some e =>
      let w := clampQ2 e.w
      if Q2.ltb ((1 : Q2) - w * w) (Q2.ofRat (1 / 10 ^ 10)) then (some 0, some false)
      else (none, some true)
  | none => (none, none)

def groundSetup (a : DieAnim) (q : Option QuatK) : DieAnim :=
  { a with
    groundStarted := true
    groundBaseQuat := normalizeOpt q
    currentOmega := some (a.flightSpeed * (11/10))
    accumulatedTheta := some 0
    rollAccum := some QuatK.id
    corrAngle := (groundCorr a q).1
    hasGroundCorrection := (groundCorr a q).2 }

/-- One `useFrame` step for a single non-held die (`DiceArena.tsx`,
lines 594–777), advancing the record and the displayed quaternion by the
elapsed time `dt`.  All control flow (phase boundaries at `u = 0.55` and
`u = 1`, settle initialization, the settle timer and the final exact snap
`quats[i].copy(qTarget)`) is rational and tracked exactly; orientation
values are tracked through the partial operations above. -/
def dieTick (a : DieAnim) (q : Option QuatK) (dt : ℚ) : DieAnim × Option QuatK :=
  if a.active = false then (a, q)
  else
    let t := a.t + dt
    let u := min 1 (t / a.dur)
    if a.finishedMotion = false then
      if u ≤ 11/20 then
        ({ a with t := t }, mulOpt a.q0 (axisAngleZeroOpt (some (t * a.flightSpeed))))
      else
        let a1 := if a.groundStarted = false then groundSetup a q else a
        let ug := (u - 11/20) / (9/20)
        let om := expDecayOpt a1.currentOmega
        let th := match a1.accumulatedTheta, om with
          | some th0, some w => some (th0 + w * dt)
          | _, _ => none
        let roll := axisAngleZeroOpt th
        let qmid := mulOpt (mulOpt a1.groundBaseQuat roll)
          (wobbleOpt a.wobblePitch a.wobbleYaw)
        let qg := if ug > 1/5 then
            slerpOpt qmid a.qTarget (easeInOutCubic ((ug - 1/5) / (4/5)) * (1/4))
          else qmid
        ({ a1 with
            t := t
            currentOmega := om
            accumulatedTheta := th
            rollAccum := roll
            finishedMotion := decide (1 ≤ u) },
         normalizeOpt qg)
    else
      let a1 := if a.settleInitialized = false then
          { a with settleInitialized := true, settleTime := 0, settleDuration := 3/5 }
        else a
      let st := a1.settleTime + dt
      let u2 := min 1 (st / a1.settleDuration)
      let om := settleOmega a1.currentOmega
      let roll := match om with
        | some w =>
            if w * dt > 1/1000000 then
              mulOpt a1.rollAccum (axisAngleZeroOpt (some (w * dt)))
            else a1.rollAccum
        | none => none
      if 1 ≤ u2 then
        ({ a1 with
            t := t
            settleTime := st
            currentOmega := om
            rollAccum := roll
            active := false
            finishedMotion := false },
         some a.qTarget)
      else
        let blend := 1/4 + (3/4) * (1 - (1 - u2) ^ 3)
        ({ a1 with t := t, settleTime := st, currentOmega := om, rollAccum := roll },
         normalizeOpt (slerpOpt (mulOpt a1.groundBaseQuat roll) a.qTarget blend))

/-! ## System state: five dice, pose slots and the tick driver -/

/-- The whole animation layer's state: the five `DieAnim` records, the five
displayed quaternions (`quats.current`), the previous tick's any-active flag
(`wasActiveRef`), `lastEmittedValuesRef`, the roll sequence counter, and the
log of completion-callback invocations (each `emit` appends the clamped
value list it reports). -/
structure SysState where
  dice : Fin 5 → DieAnim
  quats : Fin 5 → Option QuatK
  wasActive : Bool
  lastEmitted : List ℤ
  rollSeq : ℕ
  emitted : List (List ℤ)

/-- `cancelAnimForDie` from `DiceArena.tsx` (resets the animation flags; it
does not touch the die's quaternion, `rollAccum`, duration or settle timer). -/
def cancelAnimM (a : DieAnim) : DieAnim :=
  { a with
    active := false
    finishedMotion := false
    t := 0
    groundStarted := false
    hasGroundCorrection := some false
    corrAngle := some 0
    settleInitialized := false
    currentOmega := some 0
    accumulatedTheta := some 0 }

/-- A die record as constructed at component mount (the initializer of the
`anim` ref). -/
def initDie : DieAnim :=
  { active := false, finishedMotion := false, t := 0, dur := 1,
    q0 := some QuatK.id, qTarget := QuatK.id, rollAccum := some QuatK.id,
    wobbleYaw := 0, wobblePitch := 0, flightSpeed := 10,
    groundStarted := false, groundBaseQuat := some QuatK.id,
    hasGroundCorrection := some false, corrAngle := some 0,
    settleInitialized := false, settleTime := 0, settleDuration := 1/4,
    currentOmega := some 0, accumulatedTheta := some 0 }

/-- The state at component mount: identity quaternions, nothing active,
`lastEmittedValuesRef = [1,1,1,1,1]`, roll sequence `0`. -/
def initState : SysState :=
  { dice := fun _ => initDie, quats := fun _ => some QuatK.id,
    wasActive := false, lastEmitted := [1, 1, 1, 1, 1], rollSeq := 0,
    emitted := [] }

/-- The `emit` helper: clamp the values, store them in
`lastEmittedValuesRef` and invoke the completion callback with them (the
callback invocation is modelled as appending to the log; the
`requestAnimationFrame` deferral does not change which values are
reported). -/
def emitVals (vals : List ℤ) : List ℤ := vals.map (fun v => clampDie (v : ℚ))

/-- The per-die body of `rollToResult`'s loop for a non-held die: draws, in
the source's order, the duration (1 draw), launch point (2), impact offset
and angle (2), arc (1), yaw (1), the two wobble amplitudes (2), flight axis
(3) and flight speed (1) — 13 stream values — and activates the die.  Fields
the source does not assign (`currentOmega`, `accumulatedTheta`, the settle
fields, `groundBaseQuat`) keep their previous contents. -/
def rollInitDie (a : DieAnim) (q : Option QuatK) (value : ℚ) (baseDur : ℚ)
    (rng : ℕ → ℚ) (idx : ℕ) : DieAnim :=
  let v := clampDie value
  let k := ⌊rng (idx + 6) * 4⌋
  { a with
    active := true
    finishedMotion := false
    t := 0
    dur := baseDur + (rng idx - 1/2) * (11/50)
    groundStarted := false
    hasGroundCorrection := some false
    corrAngle := some 0
    q0 := q
    qTarget := (yawQuat k).mul (faceQuat v)
    rollAccum := some QuatK.id
    wobbleYaw := (rng (idx + 7) - 1/2) * (11/20)
    wobblePitch := (rng (idx + 8) - 1/2) * (11/20)
    flightSpeed := 3 + rng (idx + 12) * 11 }

/-- The sequential `for (let i = 0; i < 5; i++)` loop of `rollToResult`:
held dice get `cancelAnimForDie` (their quaternion is untouched); each
non-held die consumes its 13 stream draws and is activated. -/
def rollLoop (held : Fin 5 → Bool) (values : List ℚ) (baseDur : ℚ) (rng : ℕ → ℚ) :
    List (Fin 5) → (Fin 5 → DieAnim) → (Fin 5 → Option QuatK) → ℕ →
    (Fin 5 → DieAnim) × (Fin 5 → Option QuatK)
  | [], dice, quats, _ => (dice, quats)
  | i :: rest, dice, quats, idx =>
      if held i then
        rollLoop held values baseDur rng rest
          (Function.update dice i (cancelAnimM (dice i))) quats idx
      else
        let d := rollInitDie (dice i) (quats i) (values.getD i.1 1) baseDur rng idx
        rollLoop held values baseDur rng rest
          (Function.update dice i d)
          (Function.update quats i (quats i)) (idx + 13)

/-- `rollToResult` from `DiceArena.tsx`.  The seeded generator
(`mulberry32(0xabc000 + seq*97)` in the source) is passed in as the stream
`rng`; `heldAvoid` is the list of held-die positions the source collects from
the slot layout (lines 368–379; the slot layout itself only produces
positions, which no claim mentions, so the list is a parameter here);
`feltAspect` and `arenaWorldHeight` are the component props that fix the
arena bounds.  Landing points are generated for the non-held dice only,
then reordered by `.sort(() => rng() - 0.5)`. -/
def rollToResultM (s : SysState) (held : Fin 5 → Bool) (heldAvoid : List Vec3Q)
    (values : List ℚ) (chaosMs : ℚ) (feltAspect arenaWorldHeight : ℚ)
    (rng : ℕ → ℚ) : SysState :=
  let arenaHeight := arenaWorldHeight
  let arenaWidth := arenaWorldHeight * feltAspect
  let offsetX : ℚ := 1
  let baseDur := max (9/10) (min (17/10) (chaosMs / 1000))
  let xMin := offsetX - arenaWidth / 2 + 7/2
  let xMax := offsetX + arenaWidth / 2 - 7/2
  let zMin := -arenaHeight / 2 + 16/5
  let zMax := arenaHeight / 2 - 16/5
  let nonHeldCount := 5 - heldAvoid.length
  let gl := generateLandingPoints rng nonHeldCount (7/5) xMin xMax zMin zMax heldAvoid 0
  let srt := jsArraySortRandom rng gl.1 gl.2
  let dq := rollLoop held values baseDur rng
    [0, 1, 2, 3, 4] s.dice s.quats srt.2
  { s with
    rollSeq := s.rollSeq + 1
    lastEmitted := values.map clampDie
    dice := dq.1
    quats := dq.2 }

/-- `forceResult` from `DiceArena.tsx`: for ALL five dice (the source has no
held-dice check here) cancel the animation and snap the quaternion to
`yaw · face(clampDie value)`; then emit.  The unseeded `Math.random()` yaw
draws are passed in as `rand` (each yaw is `⌊rand i · 4⌋ · π/2`). -/
def forceResultM (s : SysState) (values : List ℚ) (rand : Fin 5 → ℚ) : SysState :=
  { s with
    rollSeq := s.rollSeq + 1
    dice := fun i => cancelAnimM (s.dice i)
    quats := fun i =>
      some ((yawQuat ⌊rand i * 4⌋).mul (faceQuat (clampDie (values.getD i.1 1))))
    lastEmitted := values.map clampDie
    emitted := s.emitted ++ [values.map clampDie] }

/-- One invocation of the `useFrame` tick driver with elapsed time `dt`
(`DiceArena.tsx` lines 507–785): held dice are force-cancelled (their
quaternion is kept as-is; the slot-position animation only moves positions,
which are not modelled); each active non-held die is advanced by `dieTick`;
`anyActive` collects, exactly as in the loop, whether any non-held die was
active when it was processed (each loop body touches only its own die, so the
sequential loop equals this pointwise form); on the falling edge
`wasActive && !anyActive` the driver emits `lastEmittedValuesRef`. -/
def frameTick (held : Fin 5 → Bool) (s : SysState) (dt : ℚ) : SysState :=
  let anyActive := (List.finRange 5).any (fun i => !held i && (s.dice i).active)
  let edge := s.wasActive && !anyActive
  { s with
    dice := fun i =>
      if held i then cancelAnimM (s.dice i)
      else if (s.dice i).active then (dieTick (s.dice i) (s.quats i) dt).1
      else s.dice i
    quats := fun i =>
      if held i then s.quats i
      else if (s.dice i).active then (dieTick (s.dice i) (s.quats i) dt).2
      else s.quats i
    wasActive := anyActive
    lastEmitted := if edge then emitVals s.lastEmitted else s.lastEmitted
    emitted := if edge then s.emitted ++ [emitVals s.lastEmitted] else s.emitted }

/-- Iterate the tick driver over a list of elapsed times. -/
def runTicks (held : Fin 5 → Bool) (s : SysState) (dts : List ℚ) : SysState :=
  dts.foldl (fun st d => frameTick held st d) s

/-- Sum of a list of rationals (total elapsed time of a tick sequence). -/
def sumQ (l : List ℚ) : ℚ := l.foldr (· + ·) 0

/-! ## Shared facts about the face-orientation lookup -/

/-- `clampDie` always lands in `1..6`. -/
theorem clampDie_bounds (x : ℚ) : 1 ≤ clampDie x ∧ clampDie x ≤ 6 :=
  ⟨le_max_left _ _, max_le (by norm_num) (min_le_left _ _)⟩

/-- Decoding a yawed face orientation returns the face value, for every face
value in `1..6` and every quarter-turn yaw. -/
theorem decode_yaw_face (v k : ℤ) (hv1 : 1 ≤ v) (hv6 : v ≤ 6)
    (hk0 : 0 ≤ k) (hk4 : k < 4) :
    computeValueFromQuaternion ((yawQuat k).mul (faceQuat v)) = v := by
  interval_cases v <;> interval_cases k <;> with_unfolding_all decide

/-- The yaw draw `Math.floor(rng() * 4)` lies in `0..3` for a stream value
in `[0, 1)`. -/
theorem floor_yaw_bounds (r : ℚ) (h0 : 0 ≤ r) (h1 : r < 1) :
    0 ≤ ⌊r * 4⌋ ∧ ⌊r * 4⌋ < 4 := by
  constructor
  · exact Int.le_floor.mpr (by push_cast; nlinarith)
  · exact Int.floor_lt.mpr (by push_cast; nlinarith)

/-- If an index is not in the processing list, `rollLoop` leaves its die and
pose slot unchanged. -/
theorem rollLoop_not_mem (held : Fin 5 → Bool) (values : List ℚ) (baseDur : ℚ)
    (rng : ℕ → ℚ) (i : Fin 5) :
    ∀ (l : List (Fin 5)) (dice : Fin 5 → DieAnim) (quats : Fin 5 → Option QuatK)
      (idx : ℕ), i ∉ l →
      (rollLoop held values baseDur rng l dice quats idx).1 i = dice i ∧
      (rollLoop held values baseDur rng l dice quats idx).2 i = quats i := by
  intro l
  induction l with
  | nil => intro dice quats idx _; exact ⟨rfl, rfl⟩
  | cons j rest ih =>
      intro dice quats idx hmem
      have hj : i ≠ j := fun h => hmem (h ▸ List.mem_cons_self j rest)
      have hrest : i ∉ rest := fun h => hmem (List.mem_cons_of_mem j h)
      unfold rollLoop
      by_cases hh : held j
      · simp only [hh, if_true]
        rcases ih (Function.update dice j (cancelAnimM (dice j))) quats idx hrest
          with ⟨h1, h2⟩
        rw [h1, h2, Function.update_noteq hj]
        exact ⟨rfl, rfl⟩
      · simp only [hh, Bool.false_eq_true, if_false]
        rcases ih
          (Function.update dice j
            (rollInitDie (dice j) (quats j) (values.getD j.1 1) baseDur rng idx))
          (Function.update quats j (quats j)) (idx + 13) hrest with ⟨h1, h2⟩
        rw [h1, h2, Function.update_noteq hj, Function.update_noteq hj]
        exact ⟨rfl, rfl⟩

/-- A non-held index processed by `rollLoop` (appearing once in the list)
comes out as `rollInitDie` applied to its original record and pose, at some
stream cursor, and its pose slot is unchanged. -/
theorem rollLoop_mem (held : Fin 5 → Bool) (values : List ℚ) (baseDur : ℚ)
    (rng : ℕ → ℚ) (i : Fin 5) (hheld : held i = false) :
    ∀ (l : List (Fin 5)) (dice : Fin 5 → DieAnim) (quats : Fin 5 → Option QuatK)
      (idx : ℕ), i ∈ l → l.Nodup →
      (∃ j, (rollLoop held values baseDur rng l dice quats idx).1 i =
        rollInitDie (dice i) (quats i) (values.getD i.1 1) baseDur rng j) ∧
      (rollLoop held values baseDur rng l dice quats idx).2 i = quats i := by
  intro l
  induction l with
  | nil => intro dice quats idx h; exact absurd h (List.not_mem_nil i)
  | cons j rest ih =>
      intro dice quats idx hmem hnd
      rcases List.mem_cons.mp hmem with rfl | hrest
      · have hni : i ∉ rest := (List.nodup_cons.mp hnd).1
        unfold rollLoop
        simp only [hheld, Bool.false_eq_true, if_false]
        rcases rollLoop_not_mem held values baseDur rng i rest
          (Function.update dice i
            (rollInitDie (dice i) (quats i) (values.getD i.1 1) baseDur rng idx))
          (Function.update quats i (quats i)) (idx + 13) hni with ⟨h1, h2⟩
        rw [h1, h2, Function.update_same, Function.update_same]
        exact ⟨⟨idx, rfl⟩, rfl⟩
      · have hij : i ≠ j := by
          rintro rfl; exact (List.nodup_cons.mp hnd).1 hrest
        unfold rollLoop
        by_cases hh : held j
        · simp only [hh, if_true]
          rcases ih (Function.update dice j (cancelAnimM (dice j))) quats idx hrest
            (List.nodup_cons.mp hnd).2 with ⟨⟨jj, h1⟩, h2⟩
          rw [Function.update_noteq hij] at h1
          exact ⟨⟨jj, h1⟩, h2⟩
        · simp only [hh, Bool.false_eq_true, if_false]
          rcases ih
            (Function.update dice j
              (rollInitDie (dice j) (quats j) (values.getD j.1 1) baseDur rng idx))
            (Function.update quats j (quats j)) (idx + 13) hrest
            (List.nodup_cons.mp hnd).2 with ⟨⟨jj, h1⟩, h2⟩
          simp only [Function.update_noteq hij] at h1 h2
          exact ⟨⟨jj, h1⟩, h2⟩

/-- After any `rollToResult` call, a non-held die's record is `rollInitDie`
of its previous record and pose at some stream cursor, and its displayed
quaternion is unchanged. -/
theorem rollToResultM_nonheld (s : SysState) (held : Fin 5 → Bool)
    (heldAvoid : List Vec3Q) (values : List ℚ) (chaosMs feltAspect ah : ℚ)
    (rng : ℕ → ℚ) (i : Fin 5) (hheld : held i = false) :
    (∃ j, (rollToResultM s held heldAvoid values chaosMs feltAspect ah rng).dice i =
      rollInitDie (s.dice i) (s.quats i) (values.getD i.1 1)
        (max (9/10) (min (17/10) (chaosMs / 1000))) rng j) ∧
    (rollToResultM s held heldAvoid values chaosMs feltAspect ah rng).quats i =
      s.quats i := by
  have hmem : i ∈ ([0, 1, 2, 3, 4] : List (Fin 5)) := by fin_cases i <;> decide
  have hnd : ([0, 1, 2, 3, 4] : List (Fin 5)).Nodup := by decide
  exact rollLoop_mem held values _ rng i hheld _ s.dice s.quats _ hmem hnd

/-! ## Concrete fixtures shared by the witnesses -/

/-- The constant stream `1/2` (a valid generator output sequence). -/
def halfStream : ℕ → ℚ := fun _ => 1/2

/-- Hold mask keeping dice 0–3 held and die 4 free. -/
def heldMask4 : Fin 5 → Bool := fun i => decide (i.1 < 4)

/-- The four held-slot positions the slot layout produces for
`arenaWorldHeight = 10` (slots `0..3` at `y = 0.75`, `z = -6`). -/
def avoid4 : List Vec3Q :=
  [⟨-9/5, 3/4, -6⟩, ⟨-2/5, 3/4, -6⟩, ⟨1, 3/4, -6⟩, ⟨12/5, 3/4, -6⟩]

/-- The state after `rollToResult([3,3,3,3,3])` with dice 0–3 held, default
chaos 1150 ms, a square arena of height 10 and the constant stream. -/
def rollFixture : SysState :=
  rollToResultM initState heldMask4 avoid4 [3, 3, 3, 3, 3] 1150 1 10 halfStream

/-- C2.  For every `V` in `1..6`, the up-vector read-back applied to the
quaternion built from `eulerForValue V` returns exactly `V`, and the six
orientations are mutually exclusive: distinct values decode to distinct
faces. -/
theorem c2_face_orientation_round_trip (v : ℤ) (hv1 : 1 ≤ v) (hv6 : v ≤ 6) :
    computeValueFromQuaternion (faceQuat v) = v ∧
    ∀ w : ℤ, 1 ≤ w → w ≤ 6 → w ≠ v →
      computeValueFromQuaternion (faceQuat w) ≠
        computeValueFromQuaternion (faceQuat v) := by
  have hall : ∀ u : ℤ, 1 ≤ u → u ≤ 6 →
      computeValueFromQuaternion (faceQuat u) = u := by
    intro u h1 h6
    interval_cases u <;> with_unfolding_all decide
  refine ⟨hall v hv1 hv6, ?_⟩
  intro w hw1 hw6 hne
  rw [hall v hv1 hv6, hall w hw1 hw6]
  exact hne

/-- Witness for C2 at `V = 3`. -/
theorem c2_witness :
    (1 : ℤ) ≤ 3 ∧ (3 : ℤ) ≤ 6 ∧
    (computeValueFromQuaternion (faceQuat 3) = 3 ∧
      ∀ w : ℤ, 1 ≤ w → w ≤ 6 → w ≠ 3 →
        computeValueFromQuaternion (faceQuat w) ≠
          computeValueFromQuaternion (faceQuat 3)) :=
  ⟨by decide, by decide, c2_face_orientation_round_trip 3 (by decide) (by decide)⟩

/-- C1.  For every call to `rollToResult(values)` (from any state, with any
held mask, bounds and avoid list, and any generator stream with values in
`[0,1)`) and every non-held die index `i`, the stored target orientation —
`eulerForValue (clampDie values[i])` composed with the random quarter-turn
yaw — decodes via `computeValueFromQuaternion` to exactly
`clampDie values[i]` (the source reads `values[i] ?? 1`, i.e. a missing
entry defaults to `1`). -/
theorem c1_roll_target_decodes (s : SysState) (held : Fin 5 → Bool)
    (heldAvoid : List Vec3Q) (values : List ℚ) (chaosMs feltAspect ah : ℚ)
    (rng : ℕ → ℚ) (hr : ∀ n, 0 ≤ rng n ∧ rng n < 1)
    (i : Fin 5) (hheld : held i = false) :
    computeValueFromQuaternion
      ((rollToResultM s held heldAvoid values chaosMs feltAspect ah rng).dice i).qTarget
      = clampDie (values.getD i.1 1) := by
  rcases (rollToResultM_nonheld s held heldAvoid values chaosMs feltAspect ah rng
    i hheld).1 with ⟨j, hj⟩
  rw [hj]
  have hq : (rollInitDie (s.dice i) (s.quats i) (values.getD i.1 1)
      (max (9/10) (min (17/10) (chaosMs / 1000))) rng j).qTarget =
      (yawQuat ⌊rng (j + 6) * 4⌋).mul (faceQuat (clampDie (values.getD i.1 1))) := by
    simp [rollInitDie]
  rw [hq]
  rcases floor_yaw_bounds (rng (j + 6)) (hr (j + 6)).1 (hr (j + 6)).2 with ⟨hk0, hk4⟩
  rcases clampDie_bounds (values.getD i.1 1) with ⟨hv1, hv6⟩
  exact decode_yaw_face _ _ hv1 hv6 hk0 hk4

/-- Witness for C1: the concrete fixture roll, die 4 (not held), constant
stream. -/
theorem c1_witness :
    (∀ n, 0 ≤ halfStream n ∧ halfStream n < 1) ∧ heldMask4 4 = false ∧
    computeValueFromQuaternion ((rollFixture.dice 4).qTarget) =
      clampDie (([3, 3, 3, 3, 3] : List ℚ).getD 4 1) :=
  ⟨fun _ => ⟨by norm_num [halfStream], by norm_num [halfStream]⟩, by decide,
    c1_roll_target_decodes initState heldMask4 avoid4 [3, 3, 3, 3, 3] 1150 1 10
      halfStream (fun _ => ⟨by norm_num [halfStream], by norm_num [halfStream]⟩)
      4 (by decide)⟩

/-- `rollToResult` leaves every displayed quaternion unchanged (a non-held
die's slot is rewritten with its own previous value `q0`, a held die's slot
is not touched at all). -/
theorem rollLoop_quats_unchanged (held : Fin 5 → Bool) (values : List ℚ)
    (baseDur : ℚ) (rng : ℕ → ℚ) :
    ∀ (l : List (Fin 5)) (dice : Fin 5 → DieAnim) (quats : Fin 5 → Option QuatK)
      (idx : ℕ), (rollLoop held values baseDur rng l dice quats idx).2 = quats := by
  intro l
  induction l with
  | nil => intro dice quats idx; rfl
  | cons j rest ih =>
      intro dice quats idx
      unfold rollLoop
      by_cases hh : held j
      · simp only [hh, if_true]; exact ih _ _ _
      · simp only [hh, Bool.false_eq_true, if_false, Function.update_eq_self]
        exact ih _ _ _

/-- C4, counterexample.  Die 0 is held, yet `forceResult` overwrites its
orientation: from the mount state (identity quaternions), forcing values
`[6,1,1,1,1]` (with yaw draw 0 for every die, one possible outcome of the
unseeded `Math.random()`) changes die 0's displayed quaternion.  The source's
`forceResult` loop has no held-dice check (`DiceArena.tsx` lines 329–342),
contradicting the claim for `forceResult`. -/
theorem c4_counterexample :
    heldMask4 0 = true ∧
    (forceResultM initState [6, 1, 1, 1, 1] (fun _ => 0)).quats 0 ≠
      initState.quats 0 := by
  constructor
  · decide
  · with_unfolding_all decide

/-- C4, amended.  A held die's quaternion is never mutated by
`rollToResult` (for every state, value array, stream and held mask); by
contrast `forceResult` overwrites the quaternion of every die — held or not —
with the yawed face orientation of its clamped value. -/
theorem c4_amended_held_die :
    (∀ (s : SysState) (held : Fin 5 → Bool) (heldAvoid : List Vec3Q)
      (values : List ℚ) (chaosMs feltAspect ah : ℚ) (rng : ℕ → ℚ) (i : Fin 5),
      held i = true →
      (rollToResultM s held heldAvoid values chaosMs feltAspect ah rng).quats i =
        s.quats i) ∧
    (∀ (s : SysState) (values : List ℚ) (rand : Fin 5 → ℚ) (i : Fin 5),
      (forceResultM s values rand).quats i =
        some ((yawQuat ⌊rand i * 4⌋).mul (faceQuat (clampDie (values.getD i.1 1))))) := by
  constructor
  · intro s held heldAvoid values chaosMs feltAspect ah rng i _
    show (rollLoop held values _ rng [0, 1, 2, 3, 4] s.dice s.quats _).2 i = s.quats i
    rw [rollLoop_quats_unchanged]
  · intro s values rand i
    rfl

/-- Witness for C4 (amended): the fixture roll leaves held die 0's
quaternion unchanged, and a concrete `forceResult` writes the predicted
orientation. -/
theorem c4_witness :
    heldMask4 0 = true ∧
    rollFixture.quats 0 = initState.quats 0 ∧
    (forceResultM initState [2, 1, 1, 1, 1] (fun _ => 3/4)).quats 0 =
      some ((yawQuat ⌊(3/4 : ℚ) * 4⌋).mul (faceQuat (clampDie (([2, 1, 1, 1, 1] : List ℚ).getD 0 1)))) :=
  ⟨by decide,
    c4_amended_held_die.1 initState heldMask4 avoid4 [3, 3, 3, 3, 3] 1150 1 10
      halfStream 0 (by decide),
    c4_amended_held_die.2 initState [2, 1, 1, 1, 1] (fun _ => 3/4) 0⟩

/-- Moving the element at `start` to an earlier position `pos` permutes the
list. -/
theorem moveToPos_perm (l : List Vec3Q) (start pos : ℕ) (hps : pos ≤ start) :
    (moveToPos l start pos).Perm l := by
  unfold moveToPos
  cases hg : l.get? start with
  | none => exact List.Perm.refl _
  | some p =>
      rcases List.get?_eq_some.mp hg with ⟨hlt, hget⟩
      have hds : l.drop start = p :: l.drop (start + 1) := by
        rw [List.drop_eq_get_cons hlt, hget]
      have hmid : (l.drop pos).drop (start - pos) = l.drop start := by
        rw [List.drop_drop]
        congr 1
        omega
      conv_rhs => rw [← List.take_append_drop pos l,
        ← List.take_append_drop (start - pos) (l.drop pos), hmid, hds]
      exact List.Perm.append_left _ (List.perm_middle.symm)

/-- The binary-search position never exceeds the right endpoint. -/
theorem binSearchPos_le (rng : ℕ → ℚ) :
    ∀ (fuel left right idx : ℕ), left ≤ right →
      (binSearchPos rng fuel left right idx).1 ≤ right := by
  intro fuel
  induction fuel with
  | zero => intro left right idx h; exact h
  | succ fuel ih =>
      intro left right idx h
      unfold binSearchPos
      by_cases hlr : right ≤ left
      · simp only [hlr, if_true]; exact h
      · simp only [hlr, if_false]
        by_cases hc : rng idx - 1/2 < 0
        · simp only [hc, if_true]
          exact le_trans (ih left (left + (right - left) / 2) (idx + 1) (by omega))
            (by omega)
        · simp only [hc, if_false]
          exact ih (left + (right - left) / 2 + 1) right (idx + 1) (by omega)

/-- The binary-insertion loop permutes the list. -/
theorem bisLoop_perm (rng : ℕ → ℚ) :
    ∀ (fuel : ℕ) (l : List Vec3Q) (start idx : ℕ),
      (bisLoop rng fuel l start idx).1.Perm l := by
  intro fuel
  induction fuel with
  | zero => intro l start idx; exact List.Perm.refl _
  | succ fuel ih =>
      intro l start idx
      unfold bisLoop
      exact (ih _ _ _).trans (moveToPos_perm l start _
        (binSearchPos_le rng start 0 start idx (Nat.zero_le _)))

/-- C9, amended (supporting fact): the source's
`.sort(() => rng() - 0.5)` reordering, as executed by V8's TimSort, always
returns a permutation of the landing points in their placement order — it is
a shuffle, but it is produced by a comparison sort over a random comparator,
not by Fisher-Yates. -/
theorem c9_amended_sort_is_permutation (rng : ℕ → ℚ) (l : List Vec3Q) (idx : ℕ) :
    (jsArraySortRandom rng l idx).1.Perm l := by
  unfold jsArraySortRandom
  by_cases h2 : l.length < 2
  · simp only [h2, if_true]
    exact List.Perm.refl _
  · simp only [h2, if_false]
    have hperm1 : ∀ r : ℕ,
        (if decide (rng idx - 1/2 < 0) = true then
          (l.take r).reverse ++ l.drop r else l).Perm l := by
      intro r
      by_cases hd : decide (rng idx - 1/2 < 0) = true
      · simp only [hd, if_true]
        exact (List.Perm.append (List.reverse_perm _) (List.Perm.refl _)).trans
          (by rw [List.take_append_drop])
      · simp only [hd, Bool.false_eq_true, if_false]
        exact List.Perm.refl _
    by_cases hrun :
        (runExtent rng (decide (rng idx - 1/2 < 0)) (l.length - 2) 2 (idx + 1)).1
          < l.length
    · simp only [hrun, if_true]
      exact (bisLoop_perm rng _ _ _ _).trans (hperm1 _)
    · simp only [hrun, if_false]
      exact hperm1 _

/-- The landing points used for the C9 refutation. -/
def pts9 : List Vec3Q := [⟨0, 31/50, 0⟩, ⟨1, 31/50, 0⟩, ⟨2, 31/50, 0⟩]

/-- The generator stream used for the C9 refutation: draws
`3/4, 1/4, 1/4, 3/4, 3/4, …`. -/
def c9Stream : ℕ → ℚ := fun n =>
  if n = 1 then 1/4 else if n = 2 then 1/4 else 3/4

/-- C9, counterexample.  On three landing points with stream draws
`3/4, 1/4, 1/4, 3/4`, the source's reordering under V8's TimSort scans an
ascending run of length 2 (draws `0.25 > 0` then `-0.25 < 0`) and
binary-inserts the third point between the first two (draws `-0.25 < 0`,
`0.25 ≥ 0`), giving `[P0, P2, P1]`.  The descending Fisher-Yates shuffle
driven by the same generator draws `j = ⌊0.75·3⌋ = 2` (no swap) and
`j = ⌊0.25·2⌋ = 0` (swap), giving `[P1, P0, P2]`; the ascending variant
draws `j = 0 + ⌊0.75·3⌋ = 2` (swap) and `j = 1 + ⌊0.25·2⌋ = 1` (no swap),
giving `[P2, P1, P0]`.  So the emitted order is not the Fisher-Yates shuffle
of the placement order, in either direction of the loop. -/
theorem c9_counterexample :
    (jsArraySortRandom c9Stream pts9 0).1 ≠ (fisherYates c9Stream pts9 0).1 ∧
    (jsArraySortRandom c9Stream pts9 0).1 ≠ (fisherYatesAsc c9Stream pts9 0).1 := by
  constructor <;> with_unfolding_all decide

/-! ## Properties of the landing-point placement -/

/-- A uniform draw lies inside the (non-degenerate or degenerate) bounds. -/
theorem drawPoint_bounds (rng : ℕ → ℚ) (idx : ℕ) (xMin xMax zMin zMax : ℚ)
    (hx : xMin ≤ xMax) (hz : zMin ≤ zMax) (hr : ∀ n, 0 ≤ rng n ∧ rng n < 1) :
    xMin ≤ (drawPoint rng idx xMin xMax zMin zMax).1.x ∧
    (drawPoint rng idx xMin xMax zMin zMax).1.x ≤ xMax ∧
    zMin ≤ (drawPoint rng idx xMin xMax zMin zMax).1.z ∧
    (drawPoint rng idx xMin xMax zMin zMax).1.z ≤ zMax := by
  rcases hr idx with ⟨h0, h1⟩
  rcases hr (idx + 1) with ⟨h0z, h1z⟩
  refine ⟨?_, ?_, ?_, ?_⟩ <;> simp only [drawPoint] <;> nlinarith

/-- Every point `tryPlace` returns (accepted or fallback) is a uniform draw
inside the bounds. -/
theorem tryPlace_bounds (rng : ℕ → ℚ) (xMin xMax zMin zMax : ℚ)
    (pts avoid : List Vec3Q) (minDist : ℚ)
    (hx : xMin ≤ xMax) (hz : zMin ≤ zMax) (hr : ∀ n, 0 ≤ rng n ∧ rng n < 1) :
    ∀ (fuel idx : ℕ),
      xMin ≤ (tryPlace rng xMin xMax zMin zMax pts avoid minDist fuel idx).1.x ∧
      (tryPlace rng xMin xMax zMin zMax pts avoid minDist fuel idx).1.x ≤ xMax ∧
      zMin ≤ (tryPlace rng xMin xMax zMin zMax pts avoid minDist fuel idx).1.z ∧
      (tryPlace rng xMin xMax zMin zMax pts avoid minDist fuel idx).1.z ≤ zMax := by
  intro fuel
  induction fuel with
  | zero => intro idx; exact drawPoint_bounds rng idx _ _ _ _ hx hz hr
  | succ fuel ih =>
      intro idx
      unfold tryPlace
      by_cases h : okPoint (drawPoint rng idx xMin xMax zMin zMax).1 pts avoid minDist
      · simp only [h, if_true]
        exact drawPoint_bounds rng idx _ _ _ _ hx hz hr
      · simp only [h, Bool.false_eq_true, if_false]
        exact ih _

/-- A point that `tryPlace` accepts within the attempt cap passed the
acceptance test against the already-placed and forbidden points. -/
theorem tryPlace_accepted (rng : ℕ → ℚ) (xMin xMax zMin zMax : ℚ)
    (pts avoid : List Vec3Q) (minDist : ℚ) :
    ∀ (fuel idx : ℕ),
      (tryPlace rng xMin xMax zMin zMax pts avoid minDist fuel idx).2.2 = true →
      okPoint (tryPlace rng xMin xMax zMin zMax pts avoid minDist fuel idx).1
        pts avoid minDist = true := by
  intro fuel
  induction fuel with
  | zero => intro idx h; exact absurd h (by simp [tryPlace])
  | succ fuel ih =>
      intro idx
      unfold tryPlace
      by_cases h : okPoint (drawPoint rng idx xMin xMax zMin zMax).1 pts avoid minDist
      · simp only [h, if_true]
        exact fun _ => trivial
      · simp only [h, Bool.false_eq_true, if_false]
        exact ih _

/-- Passing the acceptance test means real distance `≥ minDist` to every
already-placed point and `≥ 1.5·minDist` to every forbidden point. -/
theorem okPoint_sep (c : Vec3Q) (pts avoid : List Vec3Q) (minDist : ℚ)
    (h : okPoint c pts avoid minDist = true) :
    (∀ p ∈ pts, distGe c p minDist) ∧
    (∀ f ∈ avoid, distGe c f (minDist * (3/2))) := by
  simp only [okPoint, Bool.and_eq_true] at h
  rcases h with ⟨h1, h2⟩
  constructor
  · intro p hp
    have := List.all_eq_true.mp h1 p hp
    simp only [distLt, Bool.not_eq_eq_eq_not, Bool.not_true, Bool.and_eq_false_iff,
      decide_eq_false_iff_not, not_lt] at this
    rcases this with h | h
    · exact Or.inl h
    · exact Or.inr h
  · intro f hf
    have := List.all_eq_true.mp h2 f hf
    simp only [distLt, Bool.not_eq_eq_eq_not, Bool.not_true, Bool.and_eq_false_iff,
      decide_eq_false_iff_not, not_lt] at this
    rcases this with h | h
    · exact Or.inl h
    · exact Or.inr h

/-- The separation property of an instrumented placement run: walking the
produced list in placement order with `placed` the points already on the
table, every point whose flag is `true` (accepted within the 900-attempt
cap) is at real distance `≥ minDist` from all previously placed points and
`≥ 1.5·minDist` from every forbidden point. -/
def acceptedSep (minDist : ℚ) (avoid : List Vec3Q) :
    List Vec3Q → List (Vec3Q × Bool) → Prop
  | _, [] => True
  | placed, cb :: rest =>
      (cb.2 = true → (∀ p ∈ placed, distGe cb.1 p minDist) ∧
        (∀ f ∈ avoid, distGe cb.1 f (minDist * (3/2)))) ∧
      acceptedSep minDist avoid (placed ++ [cb.1]) rest

/-- The instrumented generator: always exactly `count` points, all inside
the bounds, with the separation property along the placement order. -/
theorem generateLandingPointsFlagged_spec (rng : ℕ → ℚ)
    (minDist xMin xMax zMin zMax : ℚ) (avoid : List Vec3Q)
    (hx : xMin ≤ xMax) (hz : zMin ≤ zMax) (hr : ∀ n, 0 ≤ rng n ∧ rng n < 1) :
    ∀ (count idx : ℕ) (placed : List Vec3Q),
      (generateLandingPointsFlagged rng minDist xMin xMax zMin zMax avoid
        count idx placed).1.length = count ∧
      (∀ cb ∈ (generateLandingPointsFlagged rng minDist xMin xMax zMin zMax avoid
          count idx placed).1,
        xMin ≤ cb.1.x ∧ cb.1.x ≤ xMax ∧ zMin ≤ cb.1.z ∧ cb.1.z ≤ zMax) ∧
      acceptedSep minDist avoid placed
        (generateLandingPointsFlagged rng minDist xMin xMax zMin zMax avoid
          count idx placed).1 := by
  intro count
  induction count with
  | zero =>
      intro idx placed
      exact ⟨rfl, by intro cb h; exact absurd h (List.not_mem_nil cb), trivial⟩
  | succ count ih =>
      intro idx placed
      unfold generateLandingPointsFlagged
      rcases ih (tryPlace rng xMin xMax zMin zMax placed avoid minDist 900 idx).2.1
        (placed ++ [(tryPlace rng xMin xMax zMin zMax placed avoid minDist 900 idx).1])
        with ⟨hlen, hbounds, hsep⟩
      refine ⟨by simp [hlen], ?_, ?_⟩
      · intro cb hcb
        rcases List.mem_cons.mp hcb with rfl | hcb
        · exact tryPlace_bounds rng _ _ _ _ placed avoid minDist hx hz hr 900 idx
        · exact hbounds cb hcb
      · refine ⟨?_, hsep⟩
        intro hflag
        exact okPoint_sep _ placed avoid minDist
          (tryPlace_accepted rng _ _ _ _ placed avoid minDist 900 idx hflag)

/-- C8.  For every count, stream with values in `[0,1)`, minimum distance,
rectangular bounds (degenerate bounds included) and forbidden-point list,
`generateLandingPoints` returns exactly `count` points (it is a total
function, so it terminates by construction), each within the bounds, and —
via the instrumented run it projects from — every point accepted within the
900-attempt cap is at real distance `≥ minDist` from all previously placed
points and `≥ 1.5·minDist` from every forbidden point. -/
theorem c8_landing_points (rng : ℕ → ℚ) (count idx : ℕ)
    (minDist xMin xMax zMin zMax : ℚ) (avoid : List Vec3Q)
    (hx : xMin ≤ xMax) (hz : zMin ≤ zMax) (hr : ∀ n, 0 ≤ rng n ∧ rng n < 1) :
    (generateLandingPoints rng count minDist xMin xMax zMin zMax avoid idx).1.length
      = count ∧
    (∀ p ∈ (generateLandingPoints rng count minDist xMin xMax zMin zMax avoid idx).1,
      xMin ≤ p.x ∧ p.x ≤ xMax ∧ zMin ≤ p.z ∧ p.z ≤ zMax) ∧
    acceptedSep minDist avoid []
      (generateLandingPointsFlagged rng minDist xMin xMax zMin zMax avoid
        count idx []).1 ∧
    (generateLandingPoints rng count minDist xMin xMax zMin zMax avoid idx).1 =
      (generateLandingPointsFlagged rng minDist xMin xMax zMin zMax avoid
        count idx []).1.map Prod.fst := by
  rcases generateLandingPointsFlagged_spec rng minDist xMin xMax zMin zMax avoid
    hx hz hr count idx [] with ⟨hlen, hbounds, hsep⟩
  refine ⟨by simp [generateLandingPoints, hlen], ?_, hsep, rfl⟩
  intro p hp
  simp only [generateLandingPoints, List.mem_map] at hp
  rcases hp with ⟨cb, hcb, rfl⟩
  exact hbounds cb hcb

/-- Witness for C8: two points in the unit square with the four-step stream
`0, 1/4, 1/2, 3/4, ...`, both accepted, with the separation properties
checked concretely. -/
theorem c8_witness :
    ((0:ℚ) ≤ 1 ∧ (0:ℚ) ≤ 1) ∧
    ((generateLandingPoints (fun n => (n % 4 : ℕ) / 4) 2 (1/4) 0 1 0 1 [] 0).1.length
        = 2 ∧
      (∀ p ∈ (generateLandingPoints (fun n => (n % 4 : ℕ) / 4) 2 (1/4) 0 1 0 1 [] 0).1,
        0 ≤ p.x ∧ p.x ≤ 1 ∧ 0 ≤ p.z ∧ p.z ≤ 1) ∧
      acceptedSep (1/4) [] []
        (generateLandingPointsFlagged (fun n => (n % 4 : ℕ) / 4) (1/4) 0 1 0 1 [] 2 0 []).1 ∧
      (generateLandingPoints (fun n => (n % 4 : ℕ) / 4) 2 (1/4) 0 1 0 1 [] 0).1 =
        (generateLandingPointsFlagged (fun n => (n % 4 : ℕ) / 4) (1/4) 0 1 0 1 [] 2 0 []).1.map
          Prod.fst) :=
  ⟨⟨by norm_num, by norm_num⟩,
    c8_landing_points (fun n => (n % 4 : ℕ) / 4) 2 0 (1/4) 0 1 0 1 []
      (by norm_num) (by norm_num)
      (fun n => ⟨by positivity, by
        have : (n % 4 : ℕ) < 4 := Nat.mod_lt n (by norm_num)
        have h4 : ((n % 4 : ℕ) : ℚ) < 4 := by exact_mod_cast this
        linarith⟩)⟩

/-- `EPS` from `DiceArena.tsx` line 503 (`0.010, ~0.57 deg, finalize
threshold`). -/
def EPS : ℚ := 1/100

/-- A die mid-Settling whose displayed orientation already coincides exactly
with its target: base orientation equals the target, roll accumulator at the
identity, angular velocity already clamped to zero, settle timer at `0.1` of
the `0.6` settle duration. -/
def settleFixture : DieAnim :=
  { active := true, finishedMotion := true, t := 1, dur := 1,
    q0 := some QuatK.id, qTarget := faceQuat 3, rollAccum := some QuatK.id,
    wobbleYaw := 0, wobblePitch := 0, flightSpeed := 17/2,
    groundStarted := true, groundBaseQuat := some (faceQuat 3),
    hasGroundCorrection := some false, corrAngle := some 0,
    settleInitialized := true, settleTime := 1/10, settleDuration := 3/5,
    currentOmega := some 0, accumulatedTheta := some 0 }

/-- C5, counterexample.  At this settle tick the displayed orientation comes
out exactly equal to `targetOrientation` — the remaining angular error is
`0`, far below the `EPS ≈ 0.01` rad finalize threshold — yet the die does
not leave the Settling phase (`active` stays `true`): the source's settle
branch consults only the timer (`u >= 1`), never the angular error, and
`EPS` is declared but unused there. -/
theorem c5_counterexample :
    (dieTick settleFixture (some (faceQuat 3)) (1/10)).2 =
      some settleFixture.qTarget ∧
    (0 : ℚ) < EPS ∧
    (dieTick settleFixture (some (faceQuat 3)) (1/10)).1.active = true := by
  refine ⟨?_, by norm_num [EPS], ?_⟩ <;> with_unfolding_all decide

/-- C5, amended.  A die in the Settling phase transitions to Idle exactly
when its settle timer reaches the settle duration (`0.60` s, set at settle
initialization), regardless of the angular error to the target; at that
transition the orientation is snapped exactly to `targetOrientation`. -/
theorem c5_amended_settle_exit (a : DieAnim) (q : Option QuatK) (dt : ℚ)
    (ha : a.active = true) (hf : a.finishedMotion = true)
    (hsd : a.settleInitialized = true → 0 < a.settleDuration) :
    ((dieTick a q dt).1.active = false ↔
      (if a.settleInitialized then a.settleDuration else 3/5) ≤
        (if a.settleInitialized then a.settleTime else 0) + dt) ∧
    ((if a.settleInitialized then a.settleDuration else 3/5) ≤
        (if a.settleInitialized then a.settleTime else 0) + dt →
      (dieTick a q dt).2 = some a.qTarget) := by
  by_cases hsi : a.settleInitialized
  · have hpos := hsd hsi
    have hiff : (1 ≤ min 1 ((a.settleTime + dt) / a.settleDuration)) ↔
        a.settleDuration ≤ a.settleTime + dt := by
      rw [le_min_iff]
      constructor
      · intro h
        have := (one_le_div hpos).mp h.2
        linarith
      · intro h
        exact ⟨le_refl 1, (one_le_div hpos).mpr h⟩
    simp only [dieTick, ha, hf, hsi, Bool.true_eq_false, if_false, if_true]
    by_cases hc : 1 ≤ min 1 ((a.settleTime + dt) / a.settleDuration)
    · simp only [hc, if_true]
      refine ⟨?_, fun _ => ?_⟩ <;> simp [hiff.mp hc]
    · simp only [hc, if_false]
      have hnot : ¬ a.settleDuration ≤ a.settleTime + dt := fun h => hc (hiff.mpr h)
      refine ⟨?_, fun h => absurd h hnot⟩
      simp [ha, hnot]
  · have hsi' : a.settleInitialized = false := by
      revert hsi; cases a.settleInitialized <;> simp
    have hiff : (1 ≤ min 1 ((0 + dt) / (3/5 : ℚ))) ↔ (3/5 : ℚ) ≤ 0 + dt := by
      rw [le_min_iff]
      constructor
      · intro h
        have := (one_le_div (by norm_num : (0:ℚ) < 3/5)).mp h.2
        linarith
      · intro h
        exact ⟨le_refl 1, (one_le_div (by norm_num : (0:ℚ) < 3/5)).mpr h⟩
    simp only [dieTick, ha, hf, hsi', Bool.true_eq_false, Bool.false_eq_true,
      if_false, if_true]
    by_cases hc : 1 ≤ min 1 ((0 + dt) / (3/5 : ℚ))
    · simp only [hc, if_true]
      have h35 := hiff.mp hc
      refine ⟨?_, fun _ => ?_⟩ <;> simp <;> linarith
    · simp only [hc, if_false]
      have hnot : ¬ (3/5 : ℚ) ≤ 0 + dt := fun h => hc (hiff.mpr h)
      refine ⟨?_, fun h => absurd h hnot⟩
      simp [ha]
      linarith

/-- Witness for C5 (amended): the fixture die with a `0.6`-second tick
crosses the settle duration and snaps to the target. -/
theorem c5_witness :
    settleFixture.active = true ∧ settleFixture.finishedMotion = true ∧
    (settleFixture.settleInitialized = true → 0 < settleFixture.settleDuration) ∧
    (((dieTick settleFixture (some (faceQuat 3)) (6/10)).1.active = false ↔
      (if settleFixture.settleInitialized then settleFixture.settleDuration else 3/5) ≤
        (if settleFixture.settleInitialized then settleFixture.settleTime else 0) + 6/10) ∧
    ((if settleFixture.settleInitialized then settleFixture.settleDuration else 3/5) ≤
        (if settleFixture.settleInitialized then settleFixture.settleTime else 0) + 6/10 →
      (dieTick settleFixture (some (faceQuat 3)) (6/10)).2 = some settleFixture.qTarget)) :=
  ⟨by decide, by decide, fun _ => by norm_num [settleFixture],
    c5_amended_settle_exit settleFixture (some (faceQuat 3)) (6/10) (by decide)
      (by decide) (fun _ => by norm_num [settleFixture])⟩

/-! ## Per-die liveness -/

/-- Iterate `dieTick` over a list of elapsed times. -/
def dieTicks : DieAnim → Option QuatK → List ℚ → DieAnim × Option QuatK
  | a, q, [] => (a, q)
  | a, q, dt :: rest =>
      dieTicks (dieTick a q dt).1 (dieTick a q dt).2 rest

/-- An inactive die is untouched by a tick (`if (!a.active) continue`). -/
theorem dieTick_inactive (a : DieAnim) (q : Option QuatK) (dt : ℚ)
    (h : a.active = false) : dieTick a q dt = (a, q) := by
  simp [dieTick, h]

/-- An inactive die is untouched by any tick sequence. -/
theorem dieTicks_inactive (a : DieAnim) (q : Option QuatK)
    (h : a.active = false) : ∀ dts, dieTicks a q dts = (a, q) := by
  intro dts
  induction dts with
  | nil => rfl
  | cons dt rest ih => simpa [dieTicks, dieTick_inactive a q dt h] using ih

/-- Splitting a tick sequence. -/
theorem dieTicks_append (l1 l2 : List ℚ) :
    ∀ (a : DieAnim) (q : Option QuatK),
      dieTicks a q (l1 ++ l2) =
        dieTicks (dieTicks a q l1).1 (dieTicks a q l1).2 l2 := by
  induction l1 with
  | nil => intro a q; rfl
  | cons dt rest ih => intro a q; simpa [dieTicks] using ih _ _

/-- The ground-phase setup only writes the ground/correction bookkeeping; the
phase flags, timers, duration and target are untouched. -/
theorem groundSetup_keeps (a : DieAnim) (q : Option QuatK) :
    (groundSetup a q).active = a.active ∧
    (groundSetup a q).finishedMotion = a.finishedMotion ∧
    (groundSetup a q).t = a.t ∧
    (groundSetup a q).dur = a.dur ∧
    (groundSetup a q).qTarget = a.qTarget ∧
    (groundSetup a q).settleInitialized = a.settleInitialized ∧
    (groundSetup a q).settleTime = a.settleTime ∧
    (groundSetup a q).settleDuration = a.settleDuration := by
  exact ⟨rfl, rfl, rfl, rfl, rfl, rfl, rfl, rfl⟩

/-- A tick of a die still in its motion phase: the timer advances by `dt`,
the die stays active, the motion finishes exactly when the timer reaches the
duration, and the settle bookkeeping, duration and target are untouched. -/
theorem dieTick_motion (a : DieAnim) (q : Option QuatK) (dt : ℚ)
    (ha : a.active = true) (hf : a.finishedMotion = false) (hd : 0 < a.dur) :
    (dieTick a q dt).1.active = true ∧
    (dieTick a q dt).1.t = a.t + dt ∧
    ((dieTick a q dt).1.finishedMotion = true ↔ a.dur ≤ a.t + dt) ∧
    (dieTick a q dt).1.settleInitialized = a.settleInitialized ∧
    (dieTick a q dt).1.settleTime = a.settleTime ∧
    (dieTick a q dt).1.settleDuration = a.settleDuration ∧
    (dieTick a q dt).1.qTarget = a.qTarget ∧
    (dieTick a q dt).1.dur = a.dur := by
  have hx : (1 ≤ min 1 ((a.t + dt) / a.dur)) ↔ a.dur ≤ a.t + dt := by
    rw [le_min_iff]
    constructor
    · intro h
      have := (one_le_div hd).mp h.2
      linarith
    · intro h
      exact ⟨le_refl 1, (one_le_div hd).mpr h⟩
  simp only [dieTick, ha, hf, Bool.true_eq_false, Bool.false_eq_true, if_false,
    if_true]
  by_cases hu : min 1 ((a.t + dt) / a.dur) ≤ 11/20
  · simp only [hu, if_true]
    refine ⟨?_, ?_, ?_, ?_, ?_, ?_, ?_, ?_⟩ <;>
      first
        | trivial
        | exact ha
        | rfl
        | (simp only [Bool.false_eq_true, false_iff]
           intro h
           have h1 := hx.mpr h
           linarith)
  · simp only [hu, if_false]
    by_cases hg : a.groundStarted = false
    · rw [if_pos hg]
      refine ⟨?_, ?_, ?_, ?_, ?_, ?_, ?_, ?_⟩ <;>
        first
          | trivial
          | exact ha
          | rfl
          | (rw [decide_eq_true_eq]; exact hx)
    · rw [if_neg hg]
      refine ⟨?_, ?_, ?_, ?_, ?_, ?_, ?_, ?_⟩ <;>
        first
          | trivial
          | exact ha
          | rfl
          | (rw [decide_eq_true_eq]; exact hx)

/-- A tick of a die in the settle phase: either the settle timer crosses the
settle duration and the die snaps exactly to its target and deactivates, or
it stays in the settle phase with the timer advanced and everything else in
place. -/
theorem dieTick_settle (a : DieAnim) (q : Option QuatK) (dt : ℚ)
    (ha : a.active = true) (hf : a.finishedMotion = true)
    (hsd : a.settleInitialized = true → 0 < a.settleDuration) :
    (((if a.settleInitialized then a.settleDuration else 3/5) ≤
        (if a.settleInitialized then a.settleTime else 0) + dt) →
      (dieTick a q dt).1.active = false ∧ (dieTick a q dt).2 = some a.qTarget) ∧
    ((¬ (if a.settleInitialized then a.settleDuration else 3/5) ≤
        (if a.settleInitialized then a.settleTime else 0) + dt) →
      (dieTick a q dt).1.active = true ∧
      (dieTick a q dt).1.finishedMotion = true ∧
      (dieTick a q dt).1.settleInitialized = true ∧
      (dieTick a q dt).1.settleTime =
        (if a.settleInitialized then a.settleTime else 0) + dt ∧
      (dieTick a q dt).1.settleDuration =
        (if a.settleInitialized then a.settleDuration else 3/5) ∧
      (dieTick a q dt).1.qTarget = a.qTarget) := by
  by_cases hsi : a.settleInitialized
  · have hpos := hsd hsi
    have hiff : (1 ≤ min 1 ((a.settleTime + dt) / a.settleDuration)) ↔
        a.settleDuration ≤ a.settleTime + dt := by
      rw [le_min_iff]
      constructor
      · intro h
        have := (one_le_div hpos).mp h.2
        linarith
      · intro h
        exact ⟨le_refl 1, (one_le_div hpos).mpr h⟩
    simp only [dieTick, ha, hf, hsi, Bool.true_eq_false, if_false, if_true]
    by_cases hc : 1 ≤ min 1 ((a.settleTime + dt) / a.settleDuration)
    · simp only [hc, if_true]
      refine ⟨fun _ => ⟨?_, ?_⟩, fun h => absurd (hiff.mp hc) h⟩ <;>
        first | trivial | rfl
    · simp only [hc, if_false]
      refine ⟨fun h => absurd (hiff.mpr h) hc,
        fun _ => ⟨?_, ?_, ?_, ?_, ?_, ?_⟩⟩ <;>
        first | trivial | exact ha | exact hf | exact hsi | rfl
  · have hsi' : a.settleInitialized = false := by
      revert hsi; cases a.settleInitialized <;> simp
    have hiff : (1 ≤ min 1 ((0 + dt) / (3/5 : ℚ))) ↔ (3/5 : ℚ) ≤ 0 + dt := by
      rw [le_min_iff]
      constructor
      · intro h
        have := (one_le_div (by norm_num : (0:ℚ) < 3/5)).mp h.2
        linarith
      · intro h
        exact ⟨le_refl 1, (one_le_div (by norm_num : (0:ℚ) < 3/5)).mpr h⟩
    simp only [dieTick, ha, hf, hsi', Bool.true_eq_false, Bool.false_eq_true,
      if_false, if_true]
    by_cases hc : 1 ≤ min 1 ((0 + dt) / (3/5 : ℚ))
    · simp only [hc, if_true]
      refine ⟨fun _ => ⟨?_, ?_⟩, fun h => absurd (hiff.mp hc) h⟩ <;>
        first | trivial | rfl
    · simp only [hc, if_false]
      refine ⟨fun h => absurd (hiff.mpr h) hc,
        fun _ => ⟨?_, ?_, ?_, ?_, ?_, ?_⟩⟩ <;>
        first | trivial | exact ha | exact hf | rfl

/-- The settle bookkeeping invariant kept by every reachable die record:
once the settle phase has been initialized its duration is the fixed `0.60`
and its timer is nonnegative.  The source never resets these fields on a
re-roll (`rollToResult` carries them over), so a re-rolled die can re-enter
the settle phase with a stale timer at or beyond the duration — such a die
snaps on its first settle tick, so liveness is preserved; what the invariant
rules out is only unreachable bookkeeping (a foreign duration or a negative
timer). -/
def settleGood (a : DieAnim) : Prop :=
  a.settleInitialized = true →
    (a.settleDuration = 3/5 ∧ 0 ≤ a.settleTime)

/-- A die that has finished its motion either snaps and deactivates (with
its orientation exactly the target) or stays in a well-formed settle state,
under any tick sequence of positive elapsed times. -/
theorem settle_preserve (dts : List ℚ) :
    ∀ (a : DieAnim) (q : Option QuatK),
      a.active = true → a.finishedMotion = true → settleGood a →
      (∀ d ∈ dts, 0 < d) →
      ((dieTicks a q dts).1.active = false ∧ (dieTicks a q dts).2 = some a.qTarget) ∨
      ((dieTicks a q dts).1.active = true ∧
        (dieTicks a q dts).1.finishedMotion = true ∧
        settleGood (dieTicks a q dts).1 ∧
        (dieTicks a q dts).1.qTarget = a.qTarget) := by
  induction dts with
  | nil => intro a q ha hf hg _; exact Or.inr ⟨ha, hf, hg, rfl⟩
  | cons dt rest ih =>
      intro a q ha hf hg hpos
      have hd : 0 < dt := hpos dt (List.mem_cons_self dt rest)
      have hsd : a.settleInitialized = true → 0 < a.settleDuration := by
        intro h; rw [(hg h).1]; norm_num
      rcases dieTick_settle a q dt ha hf hsd with ⟨hsnap, hstay⟩
      by_cases hc : (if a.settleInitialized then a.settleDuration else 3/5) ≤
          (if a.settleInitialized then a.settleTime else 0) + dt
      · rcases hsnap hc with ⟨h1, h2⟩
        left
        have habs : dieTicks (dieTick a q dt).1 (dieTick a q dt).2 rest =
            ((dieTick a q dt).1, (dieTick a q dt).2) :=
          dieTicks_inactive _ _ h1 rest
        simp only [dieTicks, habs]
        exact ⟨h1, h2⟩
      · rcases hstay hc with ⟨h1, h2, h3, h4, h5, h6⟩
        have hsd35 : (if a.settleInitialized then a.settleDuration else 3/5) = 3/5 := by
          by_cases hsi : a.settleInitialized
          · simp only [hsi, if_true]; exact (hg hsi).1
          · simp only [hsi, Bool.false_eq_true, if_false]
        have hg2 : settleGood (dieTick a q dt).1 := by
          intro _
          refine ⟨by rw [h5, hsd35], ?_⟩
          rw [h4]
          by_cases hsi : a.settleInitialized
          · simp only [hsi, if_true]
            have := (hg hsi).2
            linarith
          · simp only [hsi, Bool.false_eq_true, if_false]
            linarith
        have hrest : ∀ d ∈ rest, 0 < d := fun d hdm =>
          hpos d (List.mem_cons_of_mem dt hdm)
        rcases ih (dieTick a q dt).1 (dieTick a q dt).2 h1 h2 hg2 hrest with hl | hr
        · left; rw [h6] at hl; exact hl
        · right; rw [h6] at hr; exact hr

/-- If the tick sequence (all positive) covers the remaining settle budget,
a die that has finished its motion deactivates with its orientation snapped
exactly to the target. -/
theorem settle_liveness (dts : List ℚ) :
    ∀ (a : DieAnim) (q : Option QuatK),
      a.active = true → a.finishedMotion = true → settleGood a →
      (∀ d ∈ dts, 0 < d) → dts ≠ [] →
      (3/5 : ℚ) ≤ (if a.settleInitialized then a.settleTime else 0) + sumQ dts →
      (dieTicks a q dts).1.active = false ∧
      (dieTicks a q dts).2 = some a.qTarget := by
  induction dts with
  | nil =>
      intro a q _ _ _ _ hne _
      exact absurd rfl hne
  | cons dt rest ih =>
      intro a q ha hf hg hpos _ hbud
      have hd : 0 < dt := hpos dt (List.mem_cons_self dt rest)
      have hsd : a.settleInitialized = true → 0 < a.settleDuration := by
        intro h; rw [(hg h).1]; norm_num
      rcases dieTick_settle a q dt ha hf hsd with ⟨hsnap, hstay⟩
      by_cases hc : (if a.settleInitialized then a.settleDuration else 3/5) ≤
          (if a.settleInitialized then a.settleTime else 0) + dt
      · rcases hsnap hc with ⟨h1, h2⟩
        have habs : dieTicks (dieTick a q dt).1 (dieTick a q dt).2 rest =
            ((dieTick a q dt).1, (dieTick a q dt).2) :=
          dieTicks_inactive _ _ h1 rest
        simp only [dieTicks, habs]
        exact ⟨h1, h2⟩
      · rcases hstay hc with ⟨h1, h2, h3, h4, h5, h6⟩
        have hsd35 : (if a.settleInitialized then a.settleDuration else 3/5) = 3/5 := by
          by_cases hsi : a.settleInitialized
          · simp only [hsi, if_true]; exact (hg hsi).1
          · simp only [hsi, Bool.false_eq_true, if_false]
        have hg2 : settleGood (dieTick a q dt).1 := by
          intro _
          refine ⟨by rw [h5, hsd35], ?_⟩
          rw [h4]
          by_cases hsi : a.settleInitialized
          · simp only [hsi, if_true]
            have := (hg hsi).2
            linarith
          · simp only [hsi, Bool.false_eq_true, if_false]
            linarith
        have hrest : ∀ d ∈ rest, 0 < d := fun d hdm =>
          hpos d (List.mem_cons_of_mem dt hdm)
        have hbud2 : (3/5 : ℚ) ≤
            (if (dieTick a q dt).1.settleInitialized then
              (dieTick a q dt).1.settleTime else 0) + sumQ rest := by
          rw [h3, if_pos rfl, h4]
          have hsum : sumQ (dt :: rest) = dt + sumQ rest := rfl
          rw [hsum] at hbud
          by_cases hsi : a.settleInitialized
          · simp only [hsi, if_true] at hbud ⊢
            linarith
          · simp only [hsi, Bool.false_eq_true, if_false] at hbud ⊢
            linarith
        have hne2 : rest ≠ [] := by
          intro hr0
          subst hr0
          rw [hsd35] at hc
          simp only [sumQ, List.foldr_cons, List.foldr_nil] at hbud
          exact hc (by linarith)
        have := ih (dieTick a q dt).1 (dieTick a q dt).2 h1 h2 hg2 hrest hne2 hbud2
        rw [h6] at this
        exact this

/-- If the (positive) tick sequence covers the remaining motion time, a die
still in its motion phase reaches at least the settle phase: afterwards it is
either already snapped to its target and inactive, or in a well-formed
settle state with the same target. -/
theorem motion_liveness (dts : List ℚ) :
    ∀ (a : DieAnim) (q : Option QuatK),
      a.active = true → a.finishedMotion = false → 0 < a.dur → a.t < a.dur →
      settleGood a → (∀ d ∈ dts, 0 < d) → a.dur ≤ a.t + sumQ dts →
      ((dieTicks a q dts).1.active = false ∧ (dieTicks a q dts).2 = some a.qTarget) ∨
      ((dieTicks a q dts).1.active = true ∧
        (dieTicks a q dts).1.finishedMotion = true ∧
        settleGood (dieTicks a q dts).1 ∧
        (dieTicks a q dts).1.qTarget = a.qTarget) := by
  induction dts with
  | nil =>
      intro a q _ _ _ ht _ _ hbud
      exfalso
      simp only [sumQ, List.foldr_nil] at hbud
      linarith
  | cons dt rest ih =>
      intro a q ha hf hd ht hg hpos hbud
      rcases dieTick_motion a q dt ha hf hd with
        ⟨m1, m2, m3, m4, m5, m6, m7, m8⟩
      have hrest : ∀ d ∈ rest, 0 < d := fun d hdm =>
        hpos d (List.mem_cons_of_mem dt hdm)
      by_cases hcross : a.dur ≤ a.t + dt
      · have hfm : (dieTick a q dt).1.finishedMotion = true := m3.mpr hcross
        have hg2 : settleGood (dieTick a q dt).1 := by
          intro h
          rw [m4] at h
          rcases hg h with ⟨g1, g2⟩
          rw [m5, m6]
          exact ⟨g1, g2⟩
        have := settle_preserve rest (dieTick a q dt).1 (dieTick a q dt).2
          m1 hfm hg2 hrest
        rw [m7] at this
        simpa [dieTicks] using this
      · have hfm : (dieTick a q dt).1.finishedMotion = false := by
          rcases h : (dieTick a q dt).1.finishedMotion with _ | _
          · rfl
          · exact absurd (m3.mp h) hcross
        have hg2 : settleGood (dieTick a q dt).1 := by
          intro h
          rw [m4] at h
          rcases hg h with ⟨g1, g2⟩
          rw [m5, m6]
          exact ⟨g1, g2⟩
        have hbud2 : (dieTick a q dt).1.dur ≤
            (dieTick a q dt).1.t + sumQ rest := by
          rw [m8, m2]
          have hsum : sumQ (dt :: rest) = dt + sumQ rest := rfl
          rw [hsum] at hbud
          linarith
        have := ih (dieTick a q dt).1 (dieTick a q dt).2 m1 hfm
          (by rw [m8]; exact hd) (by rw [m8, m2]; exact not_le.mp hcross)
          hg2 hrest hbud2
        rw [m7] at this
        simpa [dieTicks] using this

/-- Per-die liveness with the tick sequence split into a motion part (whose
total covers the die's duration) and a settle part (whose total covers the
maximum settle duration): the die ends inactive with its displayed
quaternion exactly the target. -/
theorem die_liveness (pre post : List ℚ) (a : DieAnim) (q : Option QuatK)
    (ha : a.active = true) (hf : a.finishedMotion = false) (hd : 0 < a.dur)
    (ht : a.t < a.dur) (hg : settleGood a)
    (hpos : ∀ d ∈ pre ++ post, 0 < d)
    (hpre : a.dur ≤ a.t + sumQ pre) (hpost : (3/5 : ℚ) ≤ sumQ post) :
    (dieTicks a q (pre ++ post)).1.active = false ∧
    (dieTicks a q (pre ++ post)).2 = some a.qTarget := by
  have hpre' : ∀ d ∈ pre, 0 < d := fun d hdm =>
    hpos d (List.mem_append_left post hdm)
  have hpost' : ∀ d ∈ post, 0 < d := fun d hdm =>
    hpos d (List.mem_append_right pre hdm)
  rw [dieTicks_append]
  rcases motion_liveness pre a q ha hf hd ht hg hpre' hpre with
    ⟨d1, d2⟩ | ⟨s1, s2, s3, s4⟩
  · rw [dieTicks_inactive _ _ d1 post]
    exact ⟨d1, d2⟩
  · have heff : (0 : ℚ) ≤
        (if (dieTicks a q pre).1.settleInitialized then
          (dieTicks a q pre).1.settleTime else 0) := by
      by_cases hsi : (dieTicks a q pre).1.settleInitialized
      · simp only [hsi, if_true]
        exact (s3 hsi).2
      · simp only [hsi, Bool.false_eq_true, if_false]
        norm_num
    have hbud : (3/5 : ℚ) ≤
        (if (dieTicks a q pre).1.settleInitialized then
          (dieTicks a q pre).1.settleTime else 0) + sumQ post := by linarith
    have hne : post ≠ [] := by
      intro h0
      subst h0
      simp only [sumQ, List.foldr_nil] at hpost
      linarith
    have := settle_liveness post (dieTicks a q pre).1 (dieTicks a q pre).2
      s1 s2 s3 hpost' hne hbud
    rw [s4] at this
    exact this

/-- For a non-held die, one driver tick acts exactly as `dieTick` on its
record and pose slot (an inactive die is skipped by both). -/
theorem frameTick_proj (held : Fin 5 → Bool) (s : SysState) (dt : ℚ) (i : Fin 5)
    (hi : held i = false) :
    (frameTick held s dt).dice i = (dieTick (s.dice i) (s.quats i) dt).1 ∧
    (frameTick held s dt).quats i = (dieTick (s.dice i) (s.quats i) dt).2 := by
  by_cases hact : (s.dice i).active
  · constructor <;> simp [frameTick, hi, hact]
  · have hact' : (s.dice i).active = false := by
      revert hact; cases (s.dice i).active <;> simp
    constructor <;>
      simp [frameTick, hi, hact', dieTick_inactive (s.dice i) (s.quats i) dt hact']

/-- For a non-held die, the whole driver run acts as the per-die tick
iteration. -/
theorem runTicks_proj (held : Fin 5 → Bool) (i : Fin 5) (hi : held i = false) :
    ∀ (dts : List ℚ) (s : SysState),
      (runTicks held s dts).dice i = (dieTicks (s.dice i) (s.quats i) dts).1 ∧
      (runTicks held s dts).quats i = (dieTicks (s.dice i) (s.quats i) dts).2 := by
  intro dts
  induction dts with
  | nil => intro s; exact ⟨rfl, rfl⟩
  | cons dt rest ih =>
      intro s
      rcases frameTick_proj held s dt i hi with ⟨h1, h2⟩
      rcases ih (frameTick held s dt) with ⟨h3, h4⟩
      constructor
      · show (runTicks held (frameTick held s dt) rest).dice i = _
        rw [h3, h1, h2]; rfl
      · show (runTicks held (frameTick held s dt) rest).quats i = _
        rw [h4, h1, h2]; rfl

/-- A freshly rolled die is active, at the start of its motion, with a
positive duration.  `rollToResult` never resets the settle bookkeeping —
`rollInitDie` carries `settleInitialized`, `settleTime` and `settleDuration`
over from the previous record — so the settle invariant of the new record is
exactly that of the old one: it holds for any pre-roll state satisfying
`settleGood`, in particular for the mount state and for every state reached
by ticking, re-rolling or forcing (see the `settleGood` preservation lemmas
below). -/
theorem rollInitDie_fresh (a : DieAnim) (q : Option QuatK) (value : ℚ)
    (chaosMs : ℚ) (rng : ℕ → ℚ) (j : ℕ) (hr : ∀ n, 0 ≤ rng n ∧ rng n < 1)
    (hg : settleGood a) :
    (rollInitDie a q value (max (9/10) (min (17/10) (chaosMs / 1000))) rng j).active = true ∧
    (rollInitDie a q value (max (9/10) (min (17/10) (chaosMs / 1000))) rng j).finishedMotion = false ∧
    (rollInitDie a q value (max (9/10) (min (17/10) (chaosMs / 1000))) rng j).t = 0 ∧
    0 < (rollInitDie a q value (max (9/10) (min (17/10) (chaosMs / 1000))) rng j).dur ∧
    settleGood (rollInitDie a q value (max (9/10) (min (17/10) (chaosMs / 1000))) rng j) := by
  refine ⟨rfl, rfl, rfl, ?_, ?_⟩
  · show 0 < max (9/10) (min (17/10) (chaosMs / 1000)) + (rng j - 1/2) * (11/50)
    have hb : (9/10 : ℚ) ≤ max (9/10) (min (17/10) (chaosMs / 1000)) := le_max_left _ _
    rcases hr j with ⟨h0, h1⟩
    nlinarith
  · intro h
    exact hg h

/-- The motion-phase tick leaves the settle bookkeeping untouched, whatever
the die's duration (the flight and ground records do not write the settle
fields). -/
theorem dieTick_motion_keeps_settle (a : DieAnim) (q : Option QuatK) (dt : ℚ)
    (ha : a.active = true) (hf : a.finishedMotion = false) :
    (dieTick a q dt).1.settleInitialized = a.settleInitialized ∧
    (dieTick a q dt).1.settleTime = a.settleTime ∧
    (dieTick a q dt).1.settleDuration = a.settleDuration := by
  simp only [dieTick, ha, hf, Bool.true_eq_false, Bool.false_eq_true, if_false,
    if_true]
  by_cases hu : min 1 ((a.t + dt) / a.dur) ≤ 11/20
  · simp only [hu, if_true]
    refine ⟨?_, ?_, ?_⟩ <;> first | trivial | rfl
  · simp only [hu, if_false]
    by_cases hgs : a.groundStarted = false
    · rw [if_pos hgs]
      refine ⟨?_, ?_, ?_⟩ <;> first | trivial | rfl
    · rw [if_neg hgs]
      refine ⟨?_, ?_, ?_⟩ <;> first | trivial | rfl

/-- A tick with nonnegative elapsed time preserves the settle invariant of
any single die record. -/
theorem dieTick_settleGood (a : DieAnim) (q : Option QuatK) (dt : ℚ)
    (hdt : 0 ≤ dt) (hg : settleGood a) : settleGood (dieTick a q dt).1 := by
  by_cases ha : a.active = false
  · rw [dieTick_inactive a q dt ha]
    exact hg
  · have ha' : a.active = true := by revert ha; cases a.active <;> simp
    by_cases hf : a.finishedMotion = false
    · rcases dieTick_motion_keeps_settle a q dt ha' hf with ⟨e1, e2, e3⟩
      intro h
      rw [e1] at h
      rw [e3, e2]
      exact hg h
    · have hf' : a.finishedMotion = true := by
        revert hf; cases a.finishedMotion <;> simp
      by_cases hsi : a.settleInitialized
      · rcases hg hsi with ⟨g1, g2⟩
        simp only [dieTick, ha', hf', hsi, Bool.true_eq_false, if_false, if_true]
        by_cases hc : 1 ≤ min 1 ((a.settleTime + dt) / a.settleDuration)
        · simp only [hc, if_true]
          intro _
          refine ⟨?_, ?_⟩
          · show a.settleDuration = 3/5
            exact g1
          · show (0 : ℚ) ≤ a.settleTime + dt
            linarith
        · simp only [hc, if_false]
          intro _
          refine ⟨?_, ?_⟩
          · show a.settleDuration = 3/5
            exact g1
          · show (0 : ℚ) ≤ a.settleTime + dt
            linarith
      · have hsi' : a.settleInitialized = false := by
          revert hsi; cases a.settleInitialized <;> simp
        simp only [dieTick, ha', hf', hsi', Bool.true_eq_false, Bool.false_eq_true,
          if_false, if_true]
        by_cases hc : 1 ≤ min 1 ((0 + dt) / (3/5 : ℚ))
        · simp only [hc, if_true]
          intro _
          refine ⟨?_, ?_⟩
          · show (3/5 : ℚ) = 3/5
            rfl
          · show (0 : ℚ) ≤ 0 + dt
            linarith
        · simp only [hc, if_false]
          intro _
          refine ⟨?_, ?_⟩
          · show (3/5 : ℚ) = 3/5
            rfl
          · show (0 : ℚ) ≤ 0 + dt
            linarith

/-- The whole-system settle invariant: every die record satisfies
`settleGood`.  The lemmas below show it holds at mount and is preserved by
the tick driver, by `rollToResult` and by `forceResult`, so it holds in
every reachable state — it is the hypothesis under which the liveness
theorems apply to an arbitrary (not just the mount) pre-roll state. -/
def sysSettleGood (s : SysState) : Prop := ∀ i : Fin 5, settleGood (s.dice i)

/-- The mount state satisfies the settle invariant. -/
theorem initState_sysSettleGood : sysSettleGood initState := by
  intro i h
  have h' : initDie.settleInitialized = true := h
  exact absurd h' (by with_unfolding_all decide)

/-- `cancelAnimForDie` re-establishes the settle invariant outright (it
clears `settleInitialized`). -/
theorem cancelAnimM_settleGood (a : DieAnim) : settleGood (cancelAnimM a) := by
  intro h
  have h' : false = true := h
  exact absurd h' (by decide)

/-- `rollInitDie` carries the settle fields over, so it preserves the settle
invariant of the record it re-rolls. -/
theorem rollInitDie_settleGood (a : DieAnim) (q : Option QuatK)
    (value baseDur : ℚ) (rng : ℕ → ℚ) (j : ℕ) (hg : settleGood a) :
    settleGood (rollInitDie a q value baseDur rng j) := fun h => hg h

/-- One driver tick with nonnegative elapsed time preserves the settle
invariant. -/
theorem frameTick_sysSettleGood (held : Fin 5 → Bool) (s : SysState) (dt : ℚ)
    (hdt : 0 ≤ dt) (hg : sysSettleGood s) :
    sysSettleGood (frameTick held s dt) := by
  intro i
  show settleGood (if held i then cancelAnimM (s.dice i)
    else if (s.dice i).active then (dieTick (s.dice i) (s.quats i) dt).1
    else s.dice i)
  by_cases hh : held i
  · rw [if_pos hh]
    exact cancelAnimM_settleGood _
  · rw [if_neg hh]
    by_cases hact : (s.dice i).active
    · rw [if_pos hact]
      exact dieTick_settleGood _ _ _ hdt (hg i)
    · rw [if_neg hact]
      exact hg i

/-- Any driver run with nonnegative elapsed times preserves the settle
invariant. -/
theorem runTicks_sysSettleGood (held : Fin 5 → Bool) :
    ∀ (dts : List ℚ) (s : SysState), (∀ d ∈ dts, 0 ≤ d) → sysSettleGood s →
      sysSettleGood (runTicks held s dts) := by
  intro dts
  induction dts with
  | nil => intro s _ hg; exact hg
  | cons dt rest ih =>
      intro s hpos hg
      show sysSettleGood (runTicks held (frameTick held s dt) rest)
      exact ih (frameTick held s dt)
        (fun d hd => hpos d (List.mem_cons_of_mem dt hd))
        (frameTick_sysSettleGood held s dt (hpos dt (List.mem_cons_self dt rest)) hg)

/-- C3, counterexample to the claim as stated.  With dice 0–3 held and the
constant stream, the fixture roll gives die 4 the duration `1.15`; a single
tick whose (positive) elapsed time is exactly `dur + 0.6` — so the total
elapsed time reaches the duration plus the maximum settle duration — leaves
the die still active: the tick that completes the motion phase cannot also
run the settle phase, so the settle timer has not advanced at all. -/
theorem c3_counterexample :
    sumQ [7/4] = (rollFixture.dice 4).dur + 3/5 ∧
    (∀ d ∈ [(7/4 : ℚ)], 0 < d) ∧
    heldMask4 4 = false ∧
    ((runTicks heldMask4 rollFixture [7/4]).dice 4).active = true := by
  refine ⟨by with_unfolding_all decide, ?_, by decide, by with_unfolding_all decide⟩
  intro d hd
  rcases List.mem_singleton.mp hd with rfl
  norm_num

/-- C3, amended.  For every die activated by a `rollToResult` call from ANY
pre-roll state whose record satisfies the settle invariant (`settleGood`
holds at mount and is preserved by every tick, roll and force, so it holds
in every reachable state — including a rapid re-roll, where the source's
never-reset settle bookkeeping leaves a stale timer that only makes the die
snap sooner), and not held: for every tick sequence of positive elapsed
times in which some prefix already sums to at least the die's randomized
duration and the remaining ticks sum to at least the maximum settle duration
(`0.60` s), the die's active flag ends false and its displayed quaternion
equals `targetOrientation` exactly.  (The amendment splits the claim's
"total reaches duration + settle duration" into the prefix/suffix form the
counterexample forces: the tick on which the motion phase completes cannot
also count toward the settle phase.) -/
theorem c3_amended_roll_terminates (s : SysState) (held : Fin 5 → Bool)
    (heldAvoid : List Vec3Q)
    (values : List ℚ) (chaosMs feltAspect ah : ℚ) (rng : ℕ → ℚ)
    (hr : ∀ n, 0 ≤ rng n ∧ rng n < 1) (i : Fin 5) (hi : held i = false)
    (hsg : settleGood (s.dice i))
    (pre post : List ℚ) (hpos : ∀ d ∈ pre ++ post, 0 < d)
    (hpre : ((rollToResultM s held heldAvoid values chaosMs feltAspect ah rng).dice i).dur
      ≤ sumQ pre)
    (hpost : (3/5 : ℚ) ≤ sumQ post) :
    ((runTicks held (rollToResultM s held heldAvoid values chaosMs feltAspect ah rng)
        (pre ++ post)).dice i).active = false ∧
    (runTicks held (rollToResultM s held heldAvoid values chaosMs feltAspect ah rng)
        (pre ++ post)).quats i =
      some (((rollToResultM s held heldAvoid values chaosMs feltAspect ah rng).dice i).qTarget) := by
  rcases (rollToResultM_nonheld s held heldAvoid values chaosMs feltAspect ah
    rng i hi).1 with ⟨j, hj⟩
  rcases rollInitDie_fresh (s.dice i) (s.quats i) (values.getD i.1 1)
    chaosMs rng j hr hsg with ⟨f1, f2, f3, f4, f5⟩
  rcases runTicks_proj held i hi (pre ++ post)
    (rollToResultM s held heldAvoid values chaosMs feltAspect ah rng) with
    ⟨p1, p2⟩
  rw [p1, p2, hj]
  have ht : (rollInitDie (s.dice i) (s.quats i) (values.getD i.1 1)
      (max (9/10) (min (17/10) (chaosMs / 1000))) rng j).t <
      (rollInitDie (s.dice i) (s.quats i) (values.getD i.1 1)
      (max (9/10) (min (17/10) (chaosMs / 1000))) rng j).dur := by
    rw [f3]; exact f4
  have hpre2 : (rollInitDie (s.dice i) (s.quats i) (values.getD i.1 1)
      (max (9/10) (min (17/10) (chaosMs / 1000))) rng j).dur ≤
      (rollInitDie (s.dice i) (s.quats i) (values.getD i.1 1)
      (max (9/10) (min (17/10) (chaosMs / 1000))) rng j).t + sumQ pre := by
    rw [f3, zero_add, ← hj]
    exact hpre
  exact die_liveness pre post _ _ f1 f2 f4 ht f5 hpos hpre2 hpost

/-- Witness for C3 (amended): the fixture roll of die 4 from the mount state
(which satisfies the settle invariant) with ticks `[1.2]` then `[0.6]`. -/
theorem c3_witness :
    (∀ n, 0 ≤ halfStream n ∧ halfStream n < 1) ∧ heldMask4 4 = false ∧
    ((initState.dice 4).settleInitialized = false) ∧
    (∀ d ∈ [(6/5 : ℚ)] ++ [(3/5 : ℚ)], 0 < d) ∧
    ((rollFixture.dice 4).dur ≤ sumQ [(6/5 : ℚ)]) ∧
    ((3/5 : ℚ) ≤ sumQ [(3/5 : ℚ)]) ∧
    (((runTicks heldMask4 rollFixture ([(6/5 : ℚ)] ++ [(3/5 : ℚ)])).dice 4).active = false ∧
      (runTicks heldMask4 rollFixture ([(6/5 : ℚ)] ++ [(3/5 : ℚ)])).quats 4 =
        some ((rollFixture.dice 4).qTarget)) :=
  ⟨fun _ => ⟨by norm_num [halfStream], by norm_num [halfStream]⟩,
    by decide,
    by with_unfolding_all decide,
    by with_unfolding_all decide,
    by with_unfolding_all decide,
    by with_unfolding_all decide,
    c3_amended_roll_terminates initState heldMask4 avoid4 [3, 3, 3, 3, 3] 1150 1 10
      halfStream
      (fun _ => ⟨by norm_num [halfStream], by norm_num [halfStream]⟩) 4 (by decide)
      (initState_sysSettleGood 4)
      [6/5] [3/5] (by with_unfolding_all decide)
      (by with_unfolding_all decide) (by with_unfolding_all decide)⟩

/-! ## Emission: falling-edge detection and idempotence -/

/-- No non-held die is active. -/
def noActive (held : Fin 5 → Bool) (s : SysState) : Prop :=
  ∀ i, held i = false → (s.dice i).active = false

/-- The `anyActive` flag one driver tick computes, under `noActive`, is
`false`. -/
theorem anyFlag_false (held : Fin 5 → Bool) (s : SysState)
    (h : noActive held s) :
    (List.finRange 5).any (fun i => !held i && (s.dice i).active) = false := by
  rw [List.any_eq_false]
  intro i _
  by_cases hh : held i
  · simp [hh]
  · have hh' : held i = false := by revert hh; cases held i <;> simp
    simp [hh', h i hh']

/-- A tick from a `noActive` state: every die is inactive afterwards, the
any-active flag is recorded `false`, and it emits exactly when the previous
tick still saw activity. -/
theorem frameTick_noActive (held : Fin 5 → Bool) (s : SysState) (dt : ℚ)
    (h : noActive held s) :
    noActive held (frameTick held s dt) ∧
    (frameTick held s dt).wasActive = false ∧
    ((s.wasActive = true →
      (frameTick held s dt).emitted = s.emitted ++ [emitVals s.lastEmitted]) ∧
     (s.wasActive = false → (frameTick held s dt).emitted = s.emitted)) := by
  have hflag := anyFlag_false held s h
  refine ⟨?_, ?_, ?_, ?_⟩
  · intro i hi
    have hact := h i hi
    simp [frameTick, hi, hact]
  · simp [frameTick, hflag]
  · intro hw
    simp [frameTick, hflag, hw]
  · intro hw
    simp [frameTick, hflag, hw]

/-- `noActive` is preserved by any run of the driver. -/
theorem noActive_run (held : Fin 5 → Bool) :
    ∀ (dts : List ℚ) (s : SysState), noActive held s →
      noActive held (runTicks held s dts) := by
  intro dts
  induction dts with
  | nil => intro s h; exact h
  | cons dt rest ih =>
      intro s h
      exact ih (frameTick held s dt) (frameTick_noActive held s dt h).1

/-- After a nonempty run from a `noActive` state the recorded any-active
flag is `false`. -/
theorem runTicks_wasActive_false (held : Fin 5 → Bool) :
    ∀ (dts : List ℚ) (s : SysState), noActive held s → dts ≠ [] →
      (runTicks held s dts).wasActive = false := by
  intro dts
  induction dts with
  | nil => intro s _ hne; exact absurd rfl hne
  | cons dt rest ih =>
      intro s h _
      rcases frameTick_noActive held s dt h with ⟨h1, h2, _⟩
      rcases Decidable.em (rest = []) with rfl | hne
      · exact h2
      · exact ih (frameTick held s dt) h1 hne

/-- One tick never shortens the emission log. -/
theorem emitted_mono_tick (held : Fin 5 → Bool) (s : SysState) (dt : ℚ) :
    s.emitted.length ≤ (frameTick held s dt).emitted.length := by
  by_cases he : (s.wasActive &&
      !((List.finRange 5).any (fun i => !held i && (s.dice i).active))) = true
  · simp [frameTick, he]
  · simp only [frameTick]
    rw [if_neg he]

/-- A run never shortens the emission log. -/
theorem emitted_mono_run (held : Fin 5 → Bool) :
    ∀ (dts : List ℚ) (s : SysState),
      s.emitted.length ≤ (runTicks held s dts).emitted.length := by
  intro dts
  induction dts with
  | nil => intro s; exact le_refl _
  | cons dt rest ih =>
      intro s
      exact (emitted_mono_tick held s dt).trans (ih (frameTick held s dt))

/-- A state with some active non-held die records `wasActive = true` on the
next tick. -/
theorem frameTick_wasActive_true (held : Fin 5 → Bool) (s : SysState) (dt : ℚ)
    (i : Fin 5) (hi : held i = false) (hact : (s.dice i).active = true) :
    (frameTick held s dt).wasActive = true := by
  have : (List.finRange 5).any (fun j => !held j && (s.dice j).active) = true := by
    rw [List.any_eq_true]
    exact ⟨i, List.mem_finRange i, by simp [hi, hact]⟩
  simp [frameTick, this]

/-- A state that is not `noActive` has a witness die. -/
theorem not_noActive_witness (held : Fin 5 → Bool) (s : SysState)
    (h : ¬ noActive held s) :
    ∃ i, held i = false ∧ (s.dice i).active = true := by
  unfold noActive at h
  push_neg at h
  rcases h with ⟨i, hi, hact⟩
  exact ⟨i, hi, by revert hact; cases (s.dice i).active <;> simp⟩

/-- If a run starts with activity and ends with none, then either its last
tick still saw activity, or the falling edge fired inside the run and the
emission log grew. -/
theorem edge_fires (held : Fin 5 → Bool) :
    ∀ (dts : List ℚ) (s : SysState), ¬ noActive held s →
      noActive held (runTicks held s dts) →
      (runTicks held s dts).wasActive = true ∨
      s.emitted.length + 1 ≤ (runTicks held s dts).emitted.length := by
  intro dts
  induction dts with
  | nil => intro s h1 h2; exact absurd h2 h1
  | cons dt rest ih =>
      intro s h1 h2
      rcases not_noActive_witness held s h1 with ⟨i, hi, hact⟩
      have hw1 : (frameTick held s dt).wasActive = true :=
        frameTick_wasActive_true held s dt i hi hact
      by_cases hna : noActive held (frameTick held s dt)
      · rcases Decidable.em (rest = []) with rfl | hne
        · left; exact hw1
        · right
          rcases rest with _ | ⟨r, rest2⟩
          · exact absurd rfl hne
          · rcases frameTick_noActive held (frameTick held s dt) r hna with
              ⟨_, _, hemit, _⟩
            have hstep := hemit hw1
            have hlen : (frameTick held s dt).emitted.length + 1 =
                (frameTick held (frameTick held s dt) r).emitted.length := by
              rw [hstep, List.length_append]
              rfl
            have hmono1 : s.emitted.length ≤ (frameTick held s dt).emitted.length :=
              emitted_mono_tick held s dt
            have hmono2 := emitted_mono_run held rest2
              (frameTick held (frameTick held s dt) r)
            show s.emitted.length + 1 ≤
              (runTicks held (frameTick held (frameTick held s dt) r) rest2).emitted.length
            omega
      · have h2' : noActive held (runTicks held (frameTick held s dt) rest) := h2
        rcases ih (frameTick held s dt) hna h2' with hl | hr
        · left; exact hl
        · right
          have hmono1 : s.emitted.length ≤ (frameTick held s dt).emitted.length :=
            emitted_mono_tick held s dt
          show s.emitted.length + 1 ≤
            (runTicks held (frameTick held s dt) rest).emitted.length
          omega

/-- The relative emission bound for a run whose starting state carried the
log `E`: at most one new emission has been logged, and once it has, the
state is absorbing — every die inactive and no recorded activity (so the
falling edge cannot fire again). -/
def emitBound (E : List (List ℤ)) (s : SysState) : Prop :=
  s.emitted.length ≤ E.length + 1 ∧
  (s.emitted.length = E.length + 1 →
    ((∀ i, (s.dice i).active = false) ∧ s.wasActive = false))

/-- If the tick's any-active flag is false, every die is inactive after the
tick (held dice are cancelled, non-held dice were already inactive). -/
theorem frameTick_dice_inactive (held : Fin 5 → Bool) (s : SysState) (dt : ℚ)
    (h : (List.finRange 5).any (fun i => !held i && (s.dice i).active) = false) :
    ∀ i, ((frameTick held s dt).dice i).active = false := by
  intro i
  by_cases hh : held i
  · simp [frameTick, hh, cancelAnimM]
  · have hh' : held i = false := by revert hh; cases held i <;> simp
    have hact := List.any_eq_false.mp h i (List.mem_finRange i)
    simp only [hh', Bool.not_false, Bool.true_and] at hact
    have hact' : (s.dice i).active = false := by
      revert hact; cases (s.dice i).active <;> simp
    simp [frameTick, hh', hact']

/-- With every die inactive the any-active flag is false. -/
theorem anyFlag_false_of_all (held : Fin 5 → Bool) (s : SysState)
    (h : ∀ i, (s.dice i).active = false) :
    (List.finRange 5).any (fun i => !held i && (s.dice i).active) = false := by
  rw [List.any_eq_false]
  intro i _
  simp [h i]

/-- The relative emission bound is preserved by each tick: an emitting tick
requires `wasActive`, which the absorbing part rules out once the bound is
saturated, so the log can only reach `E + 1`, never exceed it. -/
theorem emitBound_tick (held : Fin 5 → Bool) (E : List (List ℤ)) (s : SysState)
    (dt : ℚ) (h : emitBound E s) : emitBound E (frameTick held s dt) := by
  rcases h with ⟨hle, habs⟩
  by_cases hedge : (s.wasActive &&
      !((List.finRange 5).any (fun i => !held i && (s.dice i).active))) = true
  · have hedge2 := hedge
    simp only [Bool.and_eq_true] at hedge2
    rcases hedge2 with ⟨hwa, hflag0⟩
    have hflag : (List.finRange 5).any (fun i => !held i && (s.dice i).active)
        = false := by
      revert hflag0
      cases (List.finRange 5).any (fun i => !held i && (s.dice i).active) <;> simp
    have hlen : (frameTick held s dt).emitted.length = s.emitted.length + 1 := by
      simp only [frameTick]
      rw [if_pos hedge, List.length_append]
      rfl
    have hnot : s.emitted.length ≠ E.length + 1 := by
      intro hcontra
      have hwf := (habs hcontra).2
      rw [hwf] at hwa
      exact absurd hwa (by decide)
    constructor
    · omega
    · intro _
      refine ⟨frameTick_dice_inactive held s dt hflag, ?_⟩
      simp [frameTick, hflag]
  · have hlen : (frameTick held s dt).emitted = s.emitted := by
      simp only [frameTick]
      rw [if_neg hedge]
    constructor
    · rw [hlen]; exact hle
    · intro hcontra
      rw [hlen] at hcontra
      rcases habs hcontra with ⟨hall, _⟩
      have hflag := anyFlag_false_of_all held s hall
      refine ⟨frameTick_dice_inactive held s dt hflag, ?_⟩
      simp [frameTick, hflag]

/-- The relative emission bound is preserved by every run. -/
theorem emitBound_run (held : Fin 5 → Bool) :
    ∀ (dts : List ℚ) (E : List (List ℤ)) (s : SysState), emitBound E s →
      emitBound E (runTicks held s dts) := by
  intro dts
  induction dts with
  | nil => intro E s h; exact h
  | cons dt rest ih =>
      intro E s h
      exact ih E (frameTick held s dt) (emitBound_tick held E s dt h)

/-- Splitting a driver run. -/
theorem runTicks_append (held : Fin 5 → Bool) (l1 l2 : List ℚ) (s : SysState) :
    runTicks held s (l1 ++ l2) = runTicks held (runTicks held s l1) l2 := by
  simp [runTicks, List.foldl_append]

/-- A held index processed by `rollLoop` comes out force-cancelled. -/
theorem rollLoop_held_mem (held : Fin 5 → Bool) (values : List ℚ) (baseDur : ℚ)
    (rng : ℕ → ℚ) (i : Fin 5) (hheld : held i = true) :
    ∀ (l : List (Fin 5)) (dice : Fin 5 → DieAnim) (quats : Fin 5 → Option QuatK)
      (idx : ℕ), i ∈ l → l.Nodup →
      (rollLoop held values baseDur rng l dice quats idx).1 i =
        cancelAnimM (dice i) := by
  intro l
  induction l with
  | nil => intro dice quats idx h; exact absurd h (List.not_mem_nil i)
  | cons j rest ih =>
      intro dice quats idx hmem hnd
      rcases List.mem_cons.mp hmem with rfl | hrest
      · have hni : i ∉ rest := (List.nodup_cons.mp hnd).1
        unfold rollLoop
        simp only [hheld, if_true]
        have := (rollLoop_not_mem held values baseDur rng i rest
          (Function.update dice i (cancelAnimM (dice i))) quats idx hni).1
        rw [this, Function.update_same]
      · have hij : i ≠ j := by
          rintro rfl; exact (List.nodup_cons.mp hnd).1 hrest
        unfold rollLoop
        by_cases hh : held j
        · simp only [hh, if_true]
          have := ih (Function.update dice j (cancelAnimM (dice j))) quats idx hrest
            (List.nodup_cons.mp hnd).2
          rw [this, Function.update_noteq hij]
        · simp only [hh, Bool.false_eq_true, if_false]
          have := ih
            (Function.update dice j
              (rollInitDie (dice j) (quats j) (values.getD j.1 1) baseDur rng idx))
            (Function.update quats j (quats j)) (idx + 13) hrest
            (List.nodup_cons.mp hnd).2
          rw [this, Function.update_noteq hij]

/-- A held die is inactive after any `rollToResult` call. -/
theorem rollToResultM_held_inactive (s : SysState) (held : Fin 5 → Bool)
    (heldAvoid : List Vec3Q) (values : List ℚ) (chaosMs feltAspect ah : ℚ)
    (rng : ℕ → ℚ) (i : Fin 5) (hheld : held i = true) :
    ((rollToResultM s held heldAvoid values chaosMs feltAspect ah rng).dice i).active
      = false := by
  have hmem : i ∈ ([0, 1, 2, 3, 4] : List (Fin 5)) := by fin_cases i <;> decide
  have hnd : ([0, 1, 2, 3, 4] : List (Fin 5)).Nodup := by decide
  show ((rollLoop held values _ rng [0, 1, 2, 3, 4] s.dice s.quats _).1 i).active = false
  rw [rollLoop_held_mem held values _ rng i hheld _ s.dice s.quats _ hmem hnd]
  rfl

/-- A held die is force-cancelled by any `rollToResult` call. -/
theorem rollToResultM_held_cancel (s : SysState) (held : Fin 5 → Bool)
    (heldAvoid : List Vec3Q) (values : List ℚ) (chaosMs feltAspect ah : ℚ)
    (rng : ℕ → ℚ) (i : Fin 5) (hheld : held i = true) :
    (rollToResultM s held heldAvoid values chaosMs feltAspect ah rng).dice i =
      cancelAnimM (s.dice i) := by
  have hmem : i ∈ ([0, 1, 2, 3, 4] : List (Fin 5)) := by fin_cases i <;> decide
  have hnd : ([0, 1, 2, 3, 4] : List (Fin 5)).Nodup := by decide
  show (rollLoop held values _ rng [0, 1, 2, 3, 4] s.dice s.quats _).1 i =
    cancelAnimM (s.dice i)
  rw [rollLoop_held_mem held values _ rng i hheld _ s.dice s.quats _ hmem hnd]

/-- `rollToResult` preserves the settle invariant: held dice are cancelled,
non-held dice are re-rolled with their settle fields carried over. -/
theorem rollToResultM_sysSettleGood (s : SysState) (held : Fin 5 → Bool)
    (heldAvoid : List Vec3Q) (values : List ℚ) (chaosMs feltAspect ah : ℚ)
    (rng : ℕ → ℚ) (hg : sysSettleGood s) :
    sysSettleGood (rollToResultM s held heldAvoid values chaosMs feltAspect ah rng) := by
  intro i
  by_cases hh : held i
  · rw [rollToResultM_held_cancel s held heldAvoid values chaosMs feltAspect ah
      rng i hh]
    exact cancelAnimM_settleGood _
  · have hh' : held i = false := by revert hh; cases held i <;> simp
    rcases (rollToResultM_nonheld s held heldAvoid values chaosMs feltAspect ah
      rng i hh').1 with ⟨j, hj⟩
    rw [hj]
    exact rollInitDie_settleGood _ _ _ _ _ _ (hg i)

/-- `forceResult` preserves the settle invariant (it cancels every die). -/
theorem forceResultM_sysSettleGood (s : SysState) (values : List ℚ)
    (rand : Fin 5 → ℚ) : sysSettleGood (forceResultM s values rand) :=
  fun i => cancelAnimM_settleGood (s.dice i)

/-- C7.  After one `rollToResult` call from ANY pre-roll state satisfying
the settle invariant (which holds in every reachable state, so in
particular across arbitrary roll sequences) with at least one non-held die,
and any sequence of positive ticks: the completion callback is invoked at
most once beyond the pre-roll log; and it is invoked exactly once more as
soon as the sequence contains a prefix covering every active die's
duration, a following segment covering the settle duration, and at least
one further tick for the falling edge.  Extra tick invocations after all
dice are Idle never invoke it again. -/
theorem c7_emit_exactly_once (s : SysState) (held : Fin 5 → Bool)
    (heldAvoid : List Vec3Q)
    (values : List ℚ) (chaosMs feltAspect ah : ℚ) (rng : ℕ → ℚ)
    (hr : ∀ n, 0 ≤ rng n ∧ rng n < 1) (hsg : sysSettleGood s)
    (hnh : ∃ i, held i = false)
    (dts : List ℚ) (hpos : ∀ d ∈ dts, 0 < d) :
    (runTicks held (rollToResultM s held heldAvoid values chaosMs feltAspect ah rng)
      dts).emitted.length ≤ s.emitted.length + 1 ∧
    (∀ n m : ℕ, n ≤ m → m < dts.length →
      (∀ i, held i = false →
        ((rollToResultM s held heldAvoid values chaosMs feltAspect ah rng).dice i).dur
          ≤ sumQ (dts.take n)) →
      (3/5 : ℚ) ≤ sumQ ((dts.drop n).take (m - n)) →
      (runTicks held (rollToResultM s held heldAvoid values chaosMs feltAspect ah rng)
        dts).emitted.length = s.emitted.length + 1) := by
  have hS0 : (rollToResultM s held heldAvoid values chaosMs feltAspect ah
      rng).emitted = s.emitted := rfl
  have hle : (runTicks held (rollToResultM s held heldAvoid values chaosMs
      feltAspect ah rng) dts).emitted.length ≤ s.emitted.length + 1 := by
    have hstart : emitBound s.emitted
        (rollToResultM s held heldAvoid values chaosMs feltAspect ah rng) := by
      constructor
      · rw [hS0]; omega
      · intro hcontra
        rw [hS0] at hcontra
        exact absurd hcontra (by omega)
    exact (emitBound_run held dts s.emitted _ hstart).1
  refine ⟨hle, ?_⟩
  intro n m hnm hmlen hdur hsettle
  have htake : dts.take m = dts.take n ++ (dts.drop n).take (m - n) := by
    conv_lhs => rw [show m = n + (m - n) from (Nat.add_sub_cancel' hnm).symm]
    exact List.take_add dts n (m - n)
  have hnoact : noActive held (runTicks held
      (rollToResultM s held heldAvoid values chaosMs feltAspect ah rng)
      (dts.take m)) := by
    intro i hi
    rcases (rollToResultM_nonheld s held heldAvoid values chaosMs feltAspect
      ah rng i hi).1 with ⟨j, hj⟩
    rcases rollInitDie_fresh (s.dice i) (s.quats i)
      (values.getD i.1 1) chaosMs rng j hr (hsg i) with ⟨f1, f2, f3, f4, f5⟩
    have hproj := (runTicks_proj held i hi (dts.take m)
      (rollToResultM s held heldAvoid values chaosMs feltAspect ah rng)).1
    rw [hproj, hj, htake]
    have hp : ∀ d ∈ dts.take n ++ (dts.drop n).take (m - n), 0 < d := by
      intro d hd
      rcases List.mem_append.mp hd with h | h
      · exact hpos d (List.take_subset _ _ h)
      · exact hpos d (List.drop_subset _ _ (List.take_subset _ _ h))
    have hpre : (rollInitDie (s.dice i) (s.quats i)
        (values.getD i.1 1) (max (9/10) (min (17/10) (chaosMs / 1000))) rng j).dur ≤
        (rollInitDie (s.dice i) (s.quats i)
        (values.getD i.1 1) (max (9/10) (min (17/10) (chaosMs / 1000))) rng j).t +
        sumQ (dts.take n) := by
      rw [f3, zero_add, ← hj]
      exact hdur i hi
    exact (die_liveness (dts.take n) ((dts.drop n).take (m - n)) _ _
      f1 f2 f4 (by rw [f3]; exact f4) f5 hp hpre hsettle).1
  have hsplit : runTicks held
      (rollToResultM s held heldAvoid values chaosMs feltAspect ah rng) dts =
      runTicks held (runTicks held
        (rollToResultM s held heldAvoid values chaosMs feltAspect ah rng)
        (dts.take m)) (dts.drop m) := by
    rw [← runTicks_append, List.take_append_drop]
  have hne : dts.drop m ≠ [] := by
    intro h
    have := List.drop_eq_nil_iff_le.mp h
    omega
  have hwfalse : (runTicks held
      (rollToResultM s held heldAvoid values chaosMs feltAspect ah rng)
      dts).wasActive = false := by
    rw [hsplit]
    exact runTicks_wasActive_false held (dts.drop m) _ hnoact hne
  have hnaR : noActive held (runTicks held
      (rollToResultM s held heldAvoid values chaosMs feltAspect ah rng) dts) := by
    rw [hsplit]
    exact noActive_run held (dts.drop m) _ hnoact
  have hSnot : ¬ noActive held
      (rollToResultM s held heldAvoid values chaosMs feltAspect ah rng) := by
    rcases hnh with ⟨i, hi⟩
    intro hcontra
    have hcontra2 := hcontra i hi
    rcases (rollToResultM_nonheld s held heldAvoid values chaosMs feltAspect
      ah rng i hi).1 with ⟨j, hj⟩
    rw [hj] at hcontra2
    exact absurd hcontra2 (by simp [rollInitDie])
  rcases edge_fires held dts
    (rollToResultM s held heldAvoid values chaosMs feltAspect ah rng)
    hSnot hnaR with hl | hr
  · rw [hwfalse] at hl
    exact absurd hl (by simp)
  · rw [hS0] at hr
    omega

/-- Witness for C7: the fixture roll, ticks `[1.2, 0.6, 0.1]`, prefix
`n = 1`, segment up to `m = 2`: exactly one emission. -/
theorem c7_witness :
    (∀ n, 0 ≤ halfStream n ∧ halfStream n < 1) ∧ (heldMask4 4 = false) ∧
    (∀ i : Fin 5, (initState.dice i).settleInitialized = false) ∧
    (∀ d ∈ [(6/5 : ℚ), 3/5, 1/10], 0 < d) ∧
    ((1 : ℕ) ≤ 2) ∧ ((2 : ℕ) < 3) ∧
    (∀ i, heldMask4 i = false →
      (rollFixture.dice i).dur ≤ sumQ ([(6/5 : ℚ), 3/5, 1/10].take 1)) ∧
    ((3/5 : ℚ) ≤ sumQ (([(6/5 : ℚ), 3/5, 1/10].drop 1).take (2 - 1))) ∧
    (runTicks heldMask4 rollFixture [(6/5 : ℚ), 3/5, 1/10]).emitted.length = 1 :=
  ⟨fun _ => ⟨by norm_num [halfStream], by norm_num [halfStream]⟩,
    by decide,
    by intro i; fin_cases i <;> with_unfolding_all decide,
    by with_unfolding_all decide,
    by decide, by decide,
    by intro i hi; fin_cases i <;> first
      | (exfalso; revert hi; with_unfolding_all decide)
      | with_unfolding_all decide,
    by with_unfolding_all decide,
    (c7_emit_exactly_once initState heldMask4 avoid4 [3, 3, 3, 3, 3] 1150 1 10
      halfStream
      (fun _ => ⟨by norm_num [halfStream], by norm_num [halfStream]⟩)
      initState_sysSettleGood
      ⟨4, by decide⟩ [(6/5 : ℚ), 3/5, 1/10] (by with_unfolding_all decide)).2
      1 2 (by decide) (by decide)
      (by intro i hi; fin_cases i <;> first
        | (exfalso; revert hi; with_unfolding_all decide)
        | with_unfolding_all decide)
      (by with_unfolding_all decide)⟩

/-- Hold mask with no die held. -/
def heldNone : Fin 5 → Bool := fun _ => false

/-- Hold mask with every die held. -/
def heldAll : Fin 5 → Bool := fun _ => true

/-- The five held-slot positions the slot layout produces for
`arenaWorldHeight = 10` (slots `0..4` at `y = 0.75`, `z = -6`). -/
def avoid5 : List Vec3Q := avoid4 ++ [⟨19/5, 3/4, -6⟩]

/-- Stream for the C10 refutation: ten placement draws landing five pairwise
well-separated points on the first attempt, then the constant `1/2`. -/
def c10Stream : ℕ → ℚ := fun n =>
  ([0, 0, 9/10, 0, 0, 9/10, 9/10, 9/10, 9/20, 9/20] : List ℚ).getD n (1/2)

/-- The pre-roll state of the C10 refutation: a full roll of all five dice
from the mount state followed by one tick, so that the previous tick saw
activity (`wasActiveRef = true`) while nothing has been emitted yet. -/
def c10Mid : SysState :=
  frameTick heldNone
    (rollToResultM initState heldNone [] [1, 2, 3, 4, 5] 1150 1 10 c10Stream)
    (1/10)

/-- The state right after the all-held re-roll of the C10 refutation. -/
def c10Rolled : SysState :=
  rollToResultM c10Mid heldAll avoid5 [6, 6, 6, 6, 6] 1150 1 10 c10Stream

/-- C10, counterexample to the claim as stated.  `rollToResult` never resets
`wasActiveRef` and has no early return when all five dice are held: called
mid-flight of a previous roll (one tick after a full roll, so the previous
tick saw activity), it cancels every die, and the very next tick finds no
activity while `wasActiveRef` is still `true` — the falling edge fires and
the completion callback IS invoked, reporting the all-held roll sequence's
own clamped values `[6,6,6,6,6]` (its `lastEmittedValuesRef`).  So "the
completion callback is never invoked for that roll sequence" fails. -/
theorem c10_counterexample :
    (∀ i : Fin 5, heldAll i = true) ∧
    c10Rolled.emitted = [] ∧
    (∀ i, (c10Rolled.dice i).active = false) ∧
    (runTicks heldAll c10Rolled [1/10]).emitted = [[6, 6, 6, 6, 6]] := by
  refine ⟨fun i => rfl, ?_, ?_, ?_⟩ <;> with_unfolding_all decide

/-- C10, amended.  If `rollToResult` is called while all five dice are held,
no die becomes active — from ANY pre-roll state; and provided no die was
active on the immediately preceding tick (`wasActiveRef = false`, as at
mount or in any quiescent state), over any subsequent tick sequence the
completion callback is never invoked: with no active die and no recorded
activity there is no falling edge, so the emit path is never reached.  (The
counterexample shows the quiescence proviso is necessary: with
`wasActiveRef` still `true` from a previous roll, the next tick emits the
all-held sequence's values.) -/
theorem c10_all_held_never_emits (s : SysState) (held : Fin 5 → Bool)
    (heldAvoid : List Vec3Q)
    (values : List ℚ) (chaosMs feltAspect ah : ℚ) (rng : ℕ → ℚ)
    (hall : ∀ i, held i = true) (hw : s.wasActive = false) (dts : List ℚ) :
    (∀ i, ((rollToResultM s held heldAvoid values chaosMs feltAspect ah
      rng).dice i).active = false) ∧
    (runTicks held (rollToResultM s held heldAvoid values chaosMs feltAspect
      ah rng) dts).emitted = s.emitted ∧
    (∀ i, ((runTicks held (rollToResultM s held heldAvoid values chaosMs
      feltAspect ah rng) dts).dice i).active = false) := by
  have hS : ∀ i, ((rollToResultM s held heldAvoid values chaosMs feltAspect
      ah rng).dice i).active = false := fun i =>
    rollToResultM_held_inactive s held heldAvoid values chaosMs feltAspect
      ah rng i (hall i)
  refine ⟨hS, ?_⟩
  have main : ∀ (dts : List ℚ) (st : SysState), (∀ i, (st.dice i).active = false) →
      st.wasActive = false →
      (runTicks held st dts).emitted = st.emitted ∧
      (∀ i, ((runTicks held st dts).dice i).active = false) := by
    intro dts
    induction dts with
    | nil => intro st h1 _; exact ⟨rfl, h1⟩
    | cons dt rest ih =>
        intro st h1 h2
        have hflag := anyFlag_false_of_all held st h1
        have hdice := frameTick_dice_inactive held st dt hflag
        have hem : (frameTick held st dt).emitted = st.emitted := by
          simp only [frameTick]
          rw [if_neg (by rw [h2]; simp)]
        have hw2 : (frameTick held st dt).wasActive = false := by
          simp [frameTick, hflag]
        rcases ih (frameTick held st dt) hdice hw2 with ⟨e1, e2⟩
        exact ⟨by rw [show runTicks held st (dt :: rest) =
          runTicks held (frameTick held st dt) rest from rfl, e1, hem], e2⟩
  have hw0 : (rollToResultM s held heldAvoid values chaosMs feltAspect ah
      rng).wasActive = false := hw
  have hE0 : (rollToResultM s held heldAvoid values chaosMs feltAspect ah
      rng).emitted = s.emitted := rfl
  rcases main dts _ hS hw0 with ⟨e1, e2⟩
  exact ⟨by rw [e1, hE0], e2⟩

/-- Witness for C10 (amended): the all-held mask from the mount state (which
is quiescent: `wasActiveRef = false`), the fixture inputs, two ticks. -/
theorem c10_witness :
    (∀ i : Fin 5, (fun _ : Fin 5 => true) i = true) ∧
    (initState.wasActive = false) ∧
    ((∀ i, ((rollToResultM initState (fun _ => true) avoid4 [3, 3, 3, 3, 3] 1150 1 10
      halfStream).dice i).active = false) ∧
    (runTicks (fun _ => true) (rollToResultM initState (fun _ => true) avoid4
      [3, 3, 3, 3, 3] 1150 1 10 halfStream) [(1/10 : ℚ), 1/2]).emitted = [] ∧
    (∀ i, ((runTicks (fun _ => true) (rollToResultM initState (fun _ => true) avoid4
      [3, 3, 3, 3, 3] 1150 1 10 halfStream) [(1/10 : ℚ), 1/2]).dice i).active = false)) :=
  ⟨fun _ => rfl, rfl,
    c10_all_held_never_emits initState (fun _ => true) avoid4 [3, 3, 3, 3, 3] 1150 1 10
      halfStream (fun _ => rfl) rfl [(1/10 : ℚ), 1/2]⟩

/-! ## The ground-roll orientation formula (C6)

The claim asserts that during a GroundRoll tick the displayed orientation is
`groundBaseOrientation ∘ roll ∘ wobble ∘ partial-correction`, the partial
correction being `(corrAxis, corrAngle)` applied with an ease-in-out fraction
ramping over roughly 10–75% of phase progress.  The source instead ignores
`(corrAxis, corrAngle)` in the tick entirely and slerps toward `qTarget`
(window 20%→100%, capped at 0.25).  To refute the claimed formula we model
the spec's composition over the real quaternions (following the spec's own
words — the exception for a refinement comparison) and exhibit a tick where
the source's displayed orientation is computed exactly. -/

/-- Real interpretation of a ℚ[√2] quaternion (components in THREE's
`x, y, z, w` order mapped to `re = w`, `imI = x`, `imJ = y`, `imK = z`). -/
noncomputable def interpQuat (q : QuatK) : Quaternion ℝ :=
  ⟨Q2.toReal q.w, Q2.toReal q.x, Q2.toReal q.y, Q2.toReal q.z⟩

/-- `easeInOutCubic` over ℝ. -/
noncomputable def easeInOutCubicR (x : ℝ) : ℝ :=
  if x < 1/2 then 4 * x ^ 3 else 1 - (-2 * x + 2) ^ 3 / 2

/-- The claim's correction-blend fraction: zero until 10% of ground progress,
easing in-out up to full application at 75%. -/
noncomputable def specCorrectionFraction (ug : ℝ) : ℝ :=
  if ug ≤ 1/10 then 0
  else if ug < 3/4 then easeInOutCubicR ((ug - 1/10) / (13/20))
  else 1

/-- Rotation about the axis `(ax, ay, az)` by angle `θ`
(`setFromAxisAngle`): real part `cos (θ/2)`, imaginary parts
`axis · sin (θ/2)`. -/
noncomputable def axisAngleR (ax ay az θ : ℝ) : Quaternion ℝ :=
  ⟨Real.cos (θ/2), ax * Real.sin (θ/2), ay * Real.sin (θ/2), az * Real.sin (θ/2)⟩

/-- `THREE.MathUtils.clamp (·, −1, 1)` over ℝ. -/
noncomputable def clampR (x : ℝ) : ℝ := max (-1) (min 1 x)

/-- The spec's correction angle: `2·acos` of the clamped real part of the
base→target delta (the ground-phase setup's computation over ℝ). -/
noncomputable def corrAngleR (base target : Quaternion ℝ) : ℝ :=
  2 * Real.arccos (clampR (base⁻¹ * target).re)

/-- The normalization factor `s = √(1 − w²)` of the setup. -/
noncomputable def corrS (base target : Quaternion ℝ) : ℝ :=
  Real.sqrt (max 0 (1 - clampR (base⁻¹ * target).re ^ 2))

/-- Modelled from the spec (§4.4): the claimed displayed orientation of a
GroundRoll tick — `groundBaseOrientation` composed with the accumulated
roll, the wobble, and the partial application of the precomputed correction
`(corrAxis, corrAngle)` at the blend fraction of the 10–75% window. -/
noncomputable def specGroundOrient (base roll wob target : Quaternion ℝ)
    (ug : ℝ) : Quaternion ℝ :=
  base * roll * wob *
    axisAngleR ((base⁻¹ * target).imI / corrS base target)
      ((base⁻¹ * target).imJ / corrS base target)
      ((base⁻¹ * target).imK / corrS base target)
      (specCorrectionFraction ug * corrAngleR base target)

/-- The rotation presenting face 5 (rotation by `π/2` about x) over ℝ. -/
noncomputable def qtR : Quaternion ℝ :=
  ⟨Real.sqrt 2 / 2, Real.sqrt 2 / 2, 0, 0⟩

/-- A die mid-GroundRoll at 15% of ground progress after this tick, with
identity base, zero accumulated roll, zero wobble amplitudes and target
face 5: every quantity of this tick is computed exactly. -/
def groundFixture : DieAnim :=
  { active := true, finishedMotion := false, t := 207/400, dur := 1,
    q0 := some QuatK.id, qTarget := faceQuat 5, rollAccum := some QuatK.id,
    wobbleYaw := 0, wobblePitch := 0, flightSpeed := 17/2,
    groundStarted := true, groundBaseQuat := some QuatK.id,
    hasGroundCorrection := some true, corrAngle := none,
    settleInitialized := false, settleTime := 0, settleDuration := 1/4,
    currentOmega := some 0, accumulatedTheta := some 0 }

/-- C6, counterexample.  At this GroundRoll tick (`ug = 0.15`, inside the
claim's 10–75% correction window) the source displays exactly the identity
orientation — the magnet slerp only starts at 20% — while the claim's
composition `base ∘ roll ∘ wobble ∘ partialCorrection` is a rotation by the
nonzero angle `(4/2197)·(π/2)` about x and therefore differs from the
identity.  The real interpretations tie the two sides together:
`interpQuat QuatK.id = 1` and `interpQuat (faceQuat 5) = qtR`. -/
theorem c6_counterexample :
    (dieTick groundFixture (some QuatK.id) (1/10)).2 = some QuatK.id ∧
    interpQuat QuatK.id = 1 ∧
    interpQuat (faceQuat 5) = qtR ∧
    specGroundOrient 1 1 1 qtR (3/20) ≠ 1 := by
  have h1R : Q2.toReal 1 = 1 := by
    show ((1 : ℚ) : ℝ) + ((0 : ℚ) : ℝ) * Real.sqrt 2 = 1
    norm_num
  have h0R : Q2.toReal 0 = 0 := by
    show ((0 : ℚ) : ℝ) + ((0 : ℚ) : ℝ) * Real.sqrt 2 = 0
    norm_num
  have hhR : Q2.toReal Q2.rt2half = Real.sqrt 2 / 2 := by
    show ((0 : ℚ) : ℝ) + ((1/2 : ℚ) : ℝ) * Real.sqrt 2 = Real.sqrt 2 / 2
    push_cast
    ring
  refine ⟨by with_unfolding_all decide, ?_, ?_, ?_⟩
  · show (⟨Q2.toReal 1, Q2.toReal 0, Q2.toReal 0, Q2.toReal 0⟩ : Quaternion ℝ) = 1
    rw [h1R, h0R]
    rfl
  · have hfq : faceQuat 5 = ⟨Q2.rt2half, 0, 0, Q2.rt2half⟩ := by
      with_unfolding_all decide
    rw [hfq]
    show (⟨Q2.toReal Q2.rt2half, Q2.toReal Q2.rt2half, Q2.toReal 0, Q2.toReal 0⟩ :
      Quaternion ℝ) = qtR
    rw [hhR, h0R]
    rfl
  · intro h
    have hsqrt2_le : Real.sqrt 2 ≤ 2 := by
      nlinarith [Real.sq_sqrt (show (0:ℝ) ≤ 2 by norm_num), Real.sqrt_nonneg 2]
    have hsqrt2_nn : (0:ℝ) ≤ Real.sqrt 2 := Real.sqrt_nonneg 2
    have h1 : (1 : Quaternion ℝ)⁻¹ * qtR = qtR := by rw [inv_one, one_mul]
    have hre : qtR.re = Real.sqrt 2 / 2 := rfl
    have hclamp : clampR ((1 : Quaternion ℝ)⁻¹ * qtR).re = Real.sqrt 2 / 2 := by
      rw [h1, hre, clampR, min_eq_right (by linarith), max_eq_right (by linarith)]
    have harccos : Real.arccos (Real.sqrt 2 / 2) = Real.pi / 4 := by
      rw [← Real.cos_pi_div_four]
      exact Real.arccos_cos (by positivity) (by linarith [Real.pi_pos])
    have hangle : corrAngleR 1 qtR = Real.pi / 2 := by
      rw [corrAngleR, hclamp, harccos]
      ring
    have hfrac : specCorrectionFraction (3/20) = 4/2197 := by
      rw [specCorrectionFraction, if_neg (by norm_num), if_pos (by norm_num),
        easeInOutCubicR, if_pos (by norm_num)]
      norm_num
    have hre1 : (specGroundOrient 1 1 1 qtR (3/20)).re =
        Real.cos ((4/2197 * (Real.pi / 2)) / 2) := by
      rw [specGroundOrient, one_mul, one_mul, one_mul, hfrac, hangle]
      rfl
    have hcos : Real.cos ((4/2197 * (Real.pi / 2)) / 2) = 1 := by
      rw [← hre1, h, Quaternion.one_re]
    have hx : (4/2197 * (Real.pi / 2)) / 2 = Real.pi / 2197 := by ring
    rw [hx] at hcos
    have hzero := (Real.cos_eq_one_iff_of_lt_of_lt
      (by nlinarith [Real.pi_pos]) (by nlinarith [Real.pi_pos])).mp hcos
    have : Real.pi = 0 := by linarith
    exact Real.pi_ne_zero this

/-- C6, amended.  The precomputed correction `(corrAxis, corrAngle)` and the
`hasGroundCorrection` flag have no influence on any tick's displayed
orientation, activity, phase flags or timer: the ground-roll tick instead
converges by slerping the reconstructed orientation toward `qTarget`
(with the 20%→100% window capped at 0.25, as `dieTick` computes it).  In
particular the blend applied before 20% of ground progress is zero. -/
theorem c6_amended_correction_unused (a : DieAnim) (q : Option QuatK) (dt : ℚ)
    (c c2 : Option ℚ) (h h2 : Option Bool) :
    (dieTick { a with corrAngle := c, hasGroundCorrection := h } q dt).2 =
      (dieTick { a with corrAngle := c2, hasGroundCorrection := h2 } q dt).2 ∧
    (dieTick { a with corrAngle := c, hasGroundCorrection := h } q dt).1.active =
      (dieTick { a with corrAngle := c2, hasGroundCorrection := h2 } q dt).1.active ∧
    (dieTick { a with corrAngle := c, hasGroundCorrection := h } q dt).1.finishedMotion =
      (dieTick { a with corrAngle := c2, hasGroundCorrection := h2 } q dt).1.finishedMotion ∧
    (dieTick { a with corrAngle := c, hasGroundCorrection := h } q dt).1.t =
      (dieTick { a with corrAngle := c2, hasGroundCorrection := h2 } q dt).1.t ∧
    (dieTick { a with corrAngle := c, hasGroundCorrection := h } q dt).1.settleTime =
      (dieTick { a with corrAngle := c2, hasGroundCorrection := h2 } q dt).1.settleTime := by
  by_cases h1 : a.active = false
  · simp [dieTick, h1]
  · have h1t : a.active = true := by revert h1; cases a.active <;> simp
    by_cases h2f : a.finishedMotion = false
    · by_cases h3 : min 1 ((a.t + dt) / a.dur) ≤ 11/20
      · simp [dieTick, h1t, h2f, h3]
      · by_cases h4 : a.groundStarted = false
        · simp [dieTick, groundSetup, groundCorr, h1t, h2f, h3, h4]
        · simp [dieTick, h1t, h2f, h3, h4]
    · have h2t : a.finishedMotion = true := by
        revert h2f; cases a.finishedMotion <;> simp
      by_cases h5 : a.settleInitialized = false
      · by_cases h6 : (1 : ℚ) ≤ dt / (3/5 : ℚ)
        · have h6m : (1 : ℚ) ≤ min 1 ((0 + dt) / (3/5 : ℚ)) :=
            le_min_iff.mpr ⟨le_refl 1, by simpa using h6⟩
          simp [dieTick, h1t, h2t, h5, h6, h6m]
        · have h6m : ¬ (1 : ℚ) ≤ min 1 ((0 + dt) / (3/5 : ℚ)) := by
            intro hx
            exact h6 (by simpa using (le_min_iff.mp hx).2)
          simp [dieTick, h1t, h2t, h5, h6, h6m]
      · by_cases h6 : (1 : ℚ) ≤ (a.settleTime + dt) / a.settleDuration
        · have h6m : (1 : ℚ) ≤ min 1 ((a.settleTime + dt) / a.settleDuration) :=
            le_min_iff.mpr ⟨le_refl 1, h6⟩
          simp [dieTick, h1t, h2t, h5, h6, h6m]
        · have h6m : ¬ (1 : ℚ) ≤ min 1 ((a.settleTime + dt) / a.settleDuration) := by
            intro hx
            exact h6 (le_min_iff.mp hx).2
          simp [dieTick, h1t, h2t, h5, h6, h6m]
